import Mathlib

/-!
Verification of the hidden-maze-game core (maze generation, visibility,
game loop) against its specification.  The JavaScript sources maze.js,
view.js and game.js are shallowly embedded below: JS arrays become lists,
JS Set objects keyed by coordinate strings become insertion-ordered lists
of coordinate pairs (the string key "x,y" is an injective encoding of the
pair, so the pair itself is used as the key), and the few stateful loops
become fuel-indexed structural recursions with fuel provably larger than
the number of iterations the JS loop performs.
-/

abbrev Pos := Int × Int

/-- JS array read a[i]: undefined (none) when i is out of range,
including negative indices. -/
def jsGet? {α : Type} (l : List α) (i : Int) : Option α :=
  if i < 0 then none else l[i.toNat]?

/-- JS read a[y][x] of a 2-dimensional array where an out-of-range read of
the outer array would make the inner read throw; collapsed to false here,
used only where the source guards indices. -/
def jsGet2 (g : List (List Bool)) (y x : Int) : Bool :=
  match jsGet? g y with
  | some row => (jsGet? row x).getD false
  | none => false

/-- JS in-place array write a[i] = b (no-op out of range; the source only
writes in range). -/
def setAt (row : List Bool) (i : Int) (b : Bool) : List Bool :=
  if 0 ≤ i then row.set i.toNat b else row

/-- JS in-place write a[y][x] = b. -/
def setAt2 (g : List (List Bool)) (y x : Int) (b : Bool) : List (List Bool) :=
  if 0 ≤ y then
    match g[y.toNat]? with
    | some row => g.set y.toNat (setAt row x b)
    | none => g
  else g

/-- Wall arrays of maze.js: horizontal has (height+1) rows of width
booleans, vertical has height rows of (width+1) booleans; true means a
wall is present. -/
structure Walls where
  horizontal : List (List Bool)
  vertical : List (List Bool)
deriving DecidableEq, Repr

/-- The Maze instance of maze.js: grid dimensions, generation-time cell
markers, wall arrays, start and end cells, and the computed solution
path.  The JS field name end is a Lean keyword, hence endP. -/
structure Maze where
  width : Int
  height : Int
  cells : List (List Bool)
  walls : Walls
  start : Pos
  endP : Pos
  path : List Pos
deriving DecidableEq, Repr

namespace Maze

/-- Maze.canMove of maze.js with exact JS array semantics: reading
walls.vertical[y] (or walls.horizontal[y]) out of range yields undefined
and the subsequent [x] access throws a TypeError, modelled as
Except.error (); an in-range row with an out-of-range column yields
undefined, and JS negation makes !undefined === true, so the move is
allowed.  Any (dx, dy) outside the four tested cases returns false.
Note dx === 1 is tested first, so a diagonal vector such as (1, 1) is
treated like a pure rightward move. -/
def canMove (m : Maze) (x y dx dy : Int) : Except Unit Bool :=
  if dx = 1 then
    match jsGet? m.walls.vertical y with
    | none => .error ()
    | some row => .ok (!((jsGet? row (x + 1)).getD false))
  else if dx = -1 then
    match jsGet? m.walls.vertical y with
    | none => .error ()
    | some row => .ok (!((jsGet? row x).getD false))
  else if dy = 1 then
    match jsGet? m.walls.horizontal (y + 1) with
    | none => .error ()
    | some row => .ok (!((jsGet? row x).getD false))
  else if dy = -1 then
    match jsGet? m.walls.horizontal y with
    | none => .error ()
    | some row => .ok (!((jsGet? row x).getD false))
  else .ok false

/-- Total wrapper of canMove collapsing the JS TypeError case to false.
Every in-repository caller (movePlayer, the BFS loops, hasLineOfSight)
guards the indices so that the error case is unreachable; theorems about
those callers use this wrapper. -/
def canMoveB (m : Maze) (x y dx dy : Int) : Bool :=
  match canMove m x y dx dy with
  | .ok b => b
  | .error _ => false

end Maze

/-- A concrete well-formed 2 by 2 maze with all boundary walls present
and both interior walls open; start (0,0), end (1,1). -/
def maze2x2 : Maze :=
  { width := 2, height := 2,
    cells := [[true, true], [true, true]],
    walls := { horizontal := [[true, true], [false, false], [true, true]],
               vertical := [[true, false, true], [true, false, true]] },
    start := (0, 0), endP := (1, 1), path := [] }

/-- C2: the claim states that out-of-range canMove queries return false
(fail closed) without throwing.  The code does neither: a row index out
of range makes the JS read walls.vertical[-1][1] throw a TypeError
(modelled as Except.error), and an in-range row with an out-of-range
column fails open, returning true.  Both behaviours are exhibited on the
concrete 2 by 2 maze with single-nonzero unit direction vectors. -/
theorem C2_canMove_out_of_range_misbehaves :
    Maze.canMove maze2x2 0 (-1) 1 0 = .error () ∧
    Maze.canMove maze2x2 (-2) 0 1 0 = .ok true := by
  constructor <;> rfl

/-! ## ViewSystem (view.js) -/

/-- Cells in bounds of the grid, the guard nx >= 0 && nx < width &&
ny >= 0 && ny < height used throughout the sources. -/
def inGridB (m : Maze) (p : Pos) : Bool :=
  decide (0 ≤ p.1) && decide (p.1 < m.width) && decide (0 ≤ p.2) && decide (p.2 < m.height)

/-- The loop body of hasLineOfSight (view.js): one Bresenham step from
(cx, cy) with error term err toward (x2, y2); sx, sy are the signs and
dx, dy the absolute deltas fixed at entry.  Fuel bounds the iteration
count; each iteration moves at least one coordinate toward the target,
so dx + dy + 1 iterations always suffice and the fuel-exhausted default
(false) is unreachable from the wrapper below. -/
def losLoop (m : Maze) (x2 y2 dx dy sx sy : Int) :
    Nat → Int → Int → Int → Bool
  | 0, _, _, _ => false
  | fuel + 1, err, cx, cy =>
    if cx = x2 ∧ cy = y2 then true
    else
      let e2 := 2 * err
      let err1 := if e2 > -dy then err - dy else err
      let nx := if e2 > -dy then cx + sx else cx
      let err2 := if e2 < dx then err1 + dx else err1
      let ny := if e2 < dx then cy + sy else cy
      if Maze.canMoveB m cx cy (nx - cx) (ny - cy) then
        losLoop m x2 y2 dx dy sx sy fuel err2 nx ny
      else false

/-- ViewSystem.hasLineOfSight of view.js: walk a Bresenham line from
(x1, y1) to (x2, y2), failing as soon as a step is blocked by canMove. -/
def hasLineOfSight (m : Maze) (x1 y1 x2 y2 : Int) : Bool :=
  let dx := if x1 ≤ x2 then x2 - x1 else x1 - x2
  let dy := if y1 ≤ y2 then y2 - y1 else y1 - y2
  let sx : Int := if x1 < x2 then 1 else -1
  let sy : Int := if y1 < y2 then 1 else -1
  losLoop m x2 y2 dx dy sx sy ((dx + dy).toNat + 1) (dx - dy) x1 y1

/-- The list of integers a, a+1, ..., b; the iteration space of the JS
for loops for (let d = a; d <= b; d++). -/
def intRange (a b : Int) : List Int :=
  (List.range (b + 1 - a).toNat).map (fun i : Nat => a + (i : Int))

/-- The pure double loop of calculateVisibleArea (view.js), the value
computed on a cache miss: every cell of the (2r+1) square around the
viewer that is inside the grid and passes hasLineOfSight, in row-major
loop order (dy outer, dx inner). -/
def visAreaPure (m : Maze) (px py r : Int) : List Pos :=
  (intRange (-r) r).flatMap (fun dy =>
    (intRange (-r) r).filterMap (fun dx =>
      let c : Pos := (px + dx, py + dy)
      if inGridB m c ∧ hasLineOfSight m px py c.1 c.2 then some c else none))

/-- The two view modes of view.js. -/
inductive VMode
  | permanent
  | instant
deriving DecidableEq, Repr

/-- The ViewSystem instance of view.js.  JS Set objects keyed by "x,y"
strings are insertion-ordered lists of coordinate pairs; the Map cache
keyed by "x,y,viewRange" strings is an association list. -/
structure ViewSystem where
  mode : VMode
  viewRange : Int
  visibleCells : List Pos
  exploredCells : List Pos
  permanentCells : List Pos
  cache : List ((Int × Int × Int) × List Pos)
deriving DecidableEq, Repr

namespace ViewSystem

/-- The ViewSystem constructor with explicit mode and view range. -/
def mk0 (mode : VMode) (viewRange : Int) : ViewSystem :=
  { mode := mode, viewRange := viewRange,
    visibleCells := [], exploredCells := [], permanentCells := [], cache := [] }

/-- ViewSystem.setMode: change the mode and clear the cache; explored
and permanent sets are kept. -/
def setMode (v : ViewSystem) (mode : VMode) : ViewSystem :=
  { v with mode := mode, cache := [] }

/-- JS Map.get on the cache (first matching key). -/
def cacheLookup (cache : List ((Int × Int × Int) × List Pos))
    (k : Int × Int × Int) : Option (List Pos) :=
  (cache.find? (fun e => decide (e.1 = k))).map Prod.snd

/-- ViewSystem.calculateVisibleArea: return the cached copy when the
(x, y, viewRange) key is present, otherwise run the double loop and
cache a copy of the result. -/
def calculateVisibleArea (v : ViewSystem) (px py : Int) (m : Maze) :
    List Pos × ViewSystem :=
  let key : Int × Int × Int := (px, py, v.viewRange)
  match cacheLookup v.cache key with
  | some cs => (cs, v)
  | none =>
    let cs := visAreaPure m px py v.viewRange
    (cs, { v with cache := v.cache ++ [(key, cs)] })

/-- JS Set.add: append if not already present. -/
def addOne (l : List Pos) (p : Pos) : List Pos :=
  if p ∈ l then l else l ++ [p]

/-- Adding every element of ps to the set l, in order. -/
def addAll (l : List Pos) (ps : List Pos) : List Pos :=
  ps.foldl addOne l

/-- ViewSystem.update of view.js: recompute the visible area, then in
permanent mode add it to the explored and permanent sets and merge the
whole permanent history into the visible set, while in instant mode
clear the explored set and repopulate it with exactly the current
window.  Returns the (updated) visibleCells value together with the new
system state. -/
def update (v : ViewSystem) (px py : Int) (m : Maze) :
    List Pos × ViewSystem :=
  let r := calculateVisibleArea v px py m
  let newVis := r.1
  let v1 := r.2
  match v1.mode with
  | .permanent =>
    let explored := addAll v1.exploredCells newVis
    let perm := addAll v1.permanentCells newVis
    let visible := addAll newVis perm
    (visible,
      { v1 with visibleCells := visible, exploredCells := explored,
                permanentCells := perm })
  | .instant =>
    let explored := addAll [] newVis
    (newVis, { v1 with visibleCells := newVis, exploredCells := explored })

/-- ViewSystem.isCellVisible. -/
def isCellVisible (v : ViewSystem) (x y : Int) : Bool :=
  decide ((x, y) ∈ v.visibleCells)

/-- ViewSystem.isCellExplored. -/
def isCellExplored (v : ViewSystem) (x y : Int) : Bool :=
  decide ((x, y) ∈ v.exploredCells)

end ViewSystem

/-! ### Cache consistency

The cache is only filled by calculateVisibleArea itself, with the value
of the pure double loop for the maze the system is used with, and a
ViewSystem is bound to a single maze for its whole life (Game.init
creates a fresh ViewSystem whenever the maze changes).  cacheOK is that
invariant; it holds for a fresh system and is preserved by update. -/

def cacheOK (m : Maze) (v : ViewSystem) : Prop :=
  ∀ e ∈ v.cache, e.2 = visAreaPure m e.1.1 e.1.2.1 e.1.2.2

theorem cacheOK_mk0 (m : Maze) (mode : VMode) (r : Int) :
    cacheOK m (ViewSystem.mk0 mode r) := by
  intro e he
  simp [ViewSystem.mk0] at he

/-- Under cacheOK, calculateVisibleArea returns exactly the pure double
loop value and changes nothing but the cache, whose consistency is
preserved. -/
theorem calculateVisibleArea_spec (m : Maze) (v : ViewSystem) (px py : Int)
    (hc : cacheOK m v) :
    (ViewSystem.calculateVisibleArea v px py m).1 = visAreaPure m px py v.viewRange ∧
    cacheOK m (ViewSystem.calculateVisibleArea v px py m).2 ∧
    (ViewSystem.calculateVisibleArea v px py m).2.mode = v.mode ∧
    (ViewSystem.calculateVisibleArea v px py m).2.viewRange = v.viewRange ∧
    (ViewSystem.calculateVisibleArea v px py m).2.visibleCells = v.visibleCells ∧
    (ViewSystem.calculateVisibleArea v px py m).2.exploredCells = v.exploredCells ∧
    (ViewSystem.calculateVisibleArea v px py m).2.permanentCells = v.permanentCells := by
  simp only [ViewSystem.calculateVisibleArea]
  cases hfind : ViewSystem.cacheLookup v.cache (px, py, v.viewRange) with
  | none =>
    refine ⟨rfl, ?_, rfl, rfl, rfl, rfl, rfl⟩
    intro e he
    simp only [List.mem_append, List.mem_singleton] at he
    rcases he with he | he
    · exact hc e he
    · subst he; rfl
  | some cs =>
    simp only
    have hmem : ((px, py, v.viewRange), cs) ∈ v.cache := by
      unfold ViewSystem.cacheLookup at hfind
      rcases Option.map_eq_some'.mp hfind with ⟨e, he, hsnd⟩
      have hkey := List.find?_some he
      have hk : e.1 = (px, py, v.viewRange) := by
        simpa using hkey
      have := List.mem_of_find?_eq_some he
      rw [← hk, ← hsnd]
      simpa using this
    have := hc _ hmem
    exact ⟨this, hc, trivial, trivial, trivial, trivial, trivial⟩

/-! ### Set and range membership lemmas -/

theorem mem_addOne {l : List Pos} {q p : Pos} :
    p ∈ ViewSystem.addOne l q ↔ p ∈ l ∨ p = q := by
  unfold ViewSystem.addOne
  by_cases h : q ∈ l
  · simp only [if_pos h]
    constructor
    · exact Or.inl
    · rintro (hp | rfl)
      · exact hp
      · exact h
  · simp [if_neg h]

theorem mem_addAll {ps : List Pos} {l : List Pos} {p : Pos} :
    p ∈ ViewSystem.addAll l ps ↔ p ∈ l ∨ p ∈ ps := by
  induction ps generalizing l with
  | nil => simp [ViewSystem.addAll]
  | cons q qs ih =>
    unfold ViewSystem.addAll at ih ⊢
    simp only [List.foldl_cons, ih, mem_addOne, List.mem_cons]
    tauto

theorem mem_intRange {a b x : Int} :
    x ∈ intRange a b ↔ a ≤ x ∧ x ≤ b := by
  unfold intRange
  simp only [List.mem_map, List.mem_range]
  constructor
  · rintro ⟨i, hi, rfl⟩
    omega
  · rintro ⟨h1, h2⟩
    exact ⟨(x - a).toNat, by omega, by omega⟩

theorem mem_visAreaPure {m : Maze} {px py r : Int} {p : Pos} :
    p ∈ visAreaPure m px py r ↔
      px - r ≤ p.1 ∧ p.1 ≤ px + r ∧ py - r ≤ p.2 ∧ p.2 ≤ py + r ∧
      inGridB m p = true ∧ hasLineOfSight m px py p.1 p.2 = true := by
  unfold visAreaPure
  simp only [List.mem_flatMap, List.mem_filterMap, mem_intRange]
  constructor
  · rintro ⟨dy, ⟨hy1, hy2⟩, dx, ⟨hx1, hx2⟩, hsome⟩
    split at hsome
    case isTrue h =>
      cases hsome
      exact ⟨by omega, by omega, by omega, by omega, h.1, h.2⟩
    case isFalse h => cases hsome
  · rintro ⟨h1, h2, h3, h4, hg, hl⟩
    refine ⟨p.2 - py, ⟨by omega, by omega⟩, p.1 - px, ⟨by omega, by omega⟩, ?_⟩
    have hx : px + (p.1 - px) = p.1 := by omega
    have hy : py + (p.2 - py) = p.2 := by omega
    simp only [hx, hy]
    split
    case isTrue h => rfl
    case isFalse h => exact absurd ⟨hg, hl⟩ h

/-- Line of sight from a cell to itself always succeeds: the Bresenham
walk terminates immediately on its first target check. -/
theorem hasLineOfSight_refl (m : Maze) (x y : Int) :
    hasLineOfSight m x y x y = true := by
  unfold hasLineOfSight losLoop
  simp

/-! ### ViewSystem.update specifications -/

/-- In instant mode under a consistent cache, update returns exactly the
freshly computed window, and both visibleCells and exploredCells become
exactly that window (membership-wise); mode, range and cache consistency
are preserved. -/
theorem update_instant_spec (m : Maze) (v : ViewSystem) (px py : Int)
    (hm : v.mode = .instant) (hc : cacheOK m v) :
    (ViewSystem.update v px py m).1 = visAreaPure m px py v.viewRange ∧
    (ViewSystem.update v px py m).2.visibleCells = visAreaPure m px py v.viewRange ∧
    (∀ p : Pos, p ∈ (ViewSystem.update v px py m).2.exploredCells ↔
      p ∈ visAreaPure m px py v.viewRange) ∧
    (ViewSystem.update v px py m).2.mode = v.mode ∧
    (ViewSystem.update v px py m).2.viewRange = v.viewRange ∧
    (ViewSystem.update v px py m).2.permanentCells = v.permanentCells ∧
    cacheOK m (ViewSystem.update v px py m).2 := by
  obtain ⟨h1, h2, h3, h4, h5, h6, h7⟩ := calculateVisibleArea_spec m v px py hc
  rcases hr : ViewSystem.calculateVisibleArea v px py m with ⟨newVis, v1⟩
  rw [hr] at h1 h2 h3 h4 h5 h6 h7
  simp only at h1 h2 h3 h4 h5 h6 h7
  have hm1 : v1.mode = VMode.instant := h3.trans hm
  unfold ViewSystem.update
  rw [hr]
  simp only [hm1]
  refine ⟨h1, h1, ?_, ?_, h4, h7, h2⟩
  · intro p
    rw [mem_addAll, h1]
    simp
  · exact hm.symm

/-- In permanent mode under a consistent cache, update returns the fresh
window merged with the whole permanent history; explored and permanent
sets grow by exactly the fresh window. -/
theorem update_permanent_spec (m : Maze) (v : ViewSystem) (px py : Int)
    (hm : v.mode = .permanent) (hc : cacheOK m v) :
    (∀ p : Pos, p ∈ (ViewSystem.update v px py m).1 ↔
      p ∈ visAreaPure m px py v.viewRange ∨
        (p ∈ v.permanentCells ∨ p ∈ visAreaPure m px py v.viewRange)) ∧
    (ViewSystem.update v px py m).2.visibleCells = (ViewSystem.update v px py m).1 ∧
    (∀ p : Pos, p ∈ (ViewSystem.update v px py m).2.exploredCells ↔
      p ∈ v.exploredCells ∨ p ∈ visAreaPure m px py v.viewRange) ∧
    (∀ p : Pos, p ∈ (ViewSystem.update v px py m).2.permanentCells ↔
      p ∈ v.permanentCells ∨ p ∈ visAreaPure m px py v.viewRange) ∧
    (ViewSystem.update v px py m).2.mode = v.mode ∧
    (ViewSystem.update v px py m).2.viewRange = v.viewRange ∧
    cacheOK m (ViewSystem.update v px py m).2 := by
  obtain ⟨h1, h2, h3, h4, h5, h6, h7⟩ := calculateVisibleArea_spec m v px py hc
  rcases hr : ViewSystem.calculateVisibleArea v px py m with ⟨newVis, v1⟩
  rw [hr] at h1 h2 h3 h4 h5 h6 h7
  simp only at h1 h2 h3 h4 h5 h6 h7
  have hm1 : v1.mode = VMode.permanent := h3.trans hm
  unfold ViewSystem.update
  rw [hr]
  simp only [hm1]
  refine ⟨?_, trivial, ?_, ?_, ?_, h4, h2⟩
  · intro p
    rw [mem_addAll, mem_addAll, h1, h7]
  · intro p
    rw [mem_addAll, h1, h6]
  · intro p
    rw [mem_addAll, h1, h7]
  · exact hm.symm

/-! ### Claims C4, C5, C10 -/

/-- C4: in Instant mode every update call clears exploredCells and
repopulates it with exactly the freshly computed visible window; the
returned visible set is exactly that window with no history, and any
cell outside the new window reports isCellExplored = false immediately
after the call.  cacheOK is the invariant that the lookup cache only
holds values the double loop computed for this maze; it holds for a
fresh ViewSystem and is preserved by every update. -/
theorem C4_instant_update_exact (m : Maze) (v : ViewSystem) (px py : Int)
    (hm : v.mode = VMode.instant) (hc : cacheOK m v) :
    (ViewSystem.update v px py m).1 = visAreaPure m px py v.viewRange ∧
    (∀ x y : Int,
      ViewSystem.isCellExplored (ViewSystem.update v px py m).2 x y = true ↔
        (x, y) ∈ visAreaPure m px py v.viewRange) ∧
    (∀ x y : Int, (x, y) ∉ visAreaPure m px py v.viewRange →
      ViewSystem.isCellExplored (ViewSystem.update v px py m).2 x y = false) := by
  obtain ⟨h1, _, h3, _, _, _, _⟩ := update_instant_spec m v px py hm hc
  refine ⟨h1, ?_, ?_⟩
  · intro x y
    simp only [ViewSystem.isCellExplored, decide_eq_true_iff]
    exact h3 (x, y)
  · intro x y hnot
    simp only [ViewSystem.isCellExplored, decide_eq_false_iff_not]
    intro hmem
    exact hnot ((h3 (x, y)).mp hmem)

/-- Witness for C4: a fresh instant-mode system on the concrete 2 by 2
maze satisfies both hypotheses and the conclusion is obtained by
applying the theorem there. -/
theorem C4_instant_update_exact_witness :
    (ViewSystem.mk0 VMode.instant 1).mode = VMode.instant ∧
    cacheOK maze2x2 (ViewSystem.mk0 VMode.instant 1) ∧
    ((ViewSystem.update (ViewSystem.mk0 VMode.instant 1) 0 0 maze2x2).1 =
        visAreaPure maze2x2 0 0 (ViewSystem.mk0 VMode.instant 1).viewRange ∧
      (∀ x y : Int,
        ViewSystem.isCellExplored
            (ViewSystem.update (ViewSystem.mk0 VMode.instant 1) 0 0 maze2x2).2 x y = true ↔
          (x, y) ∈ visAreaPure maze2x2 0 0 (ViewSystem.mk0 VMode.instant 1).viewRange) ∧
      (∀ x y : Int,
        (x, y) ∉ visAreaPure maze2x2 0 0 (ViewSystem.mk0 VMode.instant 1).viewRange →
        ViewSystem.isCellExplored
            (ViewSystem.update (ViewSystem.mk0 VMode.instant 1) 0 0 maze2x2).2 x y = false)) :=
  ⟨rfl, cacheOK_mk0 maze2x2 VMode.instant 1,
    C4_instant_update_exact maze2x2 (ViewSystem.mk0 VMode.instant 1) 0 0 rfl
      (cacheOK_mk0 maze2x2 VMode.instant 1)⟩

/-- A concrete 3 by 1 corridor with all interior walls open; start
(0,0), end (2,0). -/
def maze3x1 : Maze :=
  { width := 3, height := 1,
    cells := [[true, true, true]],
    walls := { horizontal := [[true, true, true], [true, true, true]],
               vertical := [[true, false, false, true]] },
    start := (0, 0), endP := (2, 0), path := [] }

/-- C5 counterexample: the claim says that after any update call,
isVisible holds only for cells within viewRange Chebyshev distance of
the viewer.  In permanent mode the whole permanentCells history is
merged into the visible set, so after updating at (0,0) and then at
(2,0) on the 3 by 1 corridor with viewRange 1, the cell (0,0) is still
visible although its Chebyshev distance to the viewer (2,0) is 2 > 1. -/
theorem C5_counterexample_permanent_history :
    ViewSystem.isCellVisible
        (ViewSystem.update
          (ViewSystem.update (ViewSystem.mk0 VMode.permanent 1) 0 0 maze3x1).2
          2 0 maze3x1).2 0 0 = true ∧
    (ViewSystem.mk0 VMode.permanent 1).viewRange = 1 ∧
    ¬ (max |(0 : Int) - 2| |(0 : Int) - 0| ≤ 1) := by
  refine ⟨by decide, rfl, by decide⟩

/-- C5 amended: restricted to Instant mode (under cache consistency),
visibility after update is exactly bounded by Chebyshev distance within
viewRange together with an unobstructed hasLineOfSight; in permanent
mode the claim fails because the permanent history is merged into the
visible set (see the counterexample). -/
theorem C5_amended_instant_visibility (m : Maze) (v : ViewSystem)
    (px py x y : Int) (hm : v.mode = VMode.instant) (hc : cacheOK m v)
    (hv : ViewSystem.isCellVisible (ViewSystem.update v px py m).2 x y = true) :
    max |x - px| |y - py| ≤ v.viewRange ∧ hasLineOfSight m px py x y = true := by
  obtain ⟨_, h2, _, _, _, _, _⟩ := update_instant_spec m v px py hm hc
  simp only [ViewSystem.isCellVisible, decide_eq_true_iff] at hv
  rw [h2] at hv
  rw [mem_visAreaPure] at hv
  obtain ⟨b1, b2, b3, b4, _, hlos⟩ := hv
  constructor
  · rw [max_le_iff, abs_le, abs_le]
    omega
  · exact hlos

/-- Witness for C5 amended: on the 2 by 2 maze with a fresh
instant-mode system, the viewer cell (0,0) is visible after update and
the theorem applies. -/
theorem C5_amended_instant_visibility_witness :
    (ViewSystem.mk0 VMode.instant 1).mode = VMode.instant ∧
    cacheOK maze2x2 (ViewSystem.mk0 VMode.instant 1) ∧
    ViewSystem.isCellVisible
        (ViewSystem.update (ViewSystem.mk0 VMode.instant 1) 0 0 maze2x2).2 0 0 = true ∧
    (max |(0 : Int) - 0| |(0 : Int) - 0| ≤ (ViewSystem.mk0 VMode.instant 1).viewRange ∧
      hasLineOfSight maze2x2 0 0 0 0 = true) :=
  ⟨rfl, cacheOK_mk0 maze2x2 VMode.instant 1, by decide,
    C5_amended_instant_visibility maze2x2 (ViewSystem.mk0 VMode.instant 1) 0 0 0 0 rfl
      (cacheOK_mk0 maze2x2 VMode.instant 1) (by decide)⟩

/-- C10: after any update with the viewer inside the grid and
viewRange at least 1, the viewer's own cell belongs to the returned
visible set, in both modes: line of sight from a cell to itself always
succeeds, so the cell is in the fresh window, and both modes return a
superset of the fresh window. -/
theorem C10_viewer_cell_visible (m : Maze) (v : ViewSystem) (px py : Int)
    (hg : inGridB m (px, py) = true) (hr : 1 ≤ v.viewRange)
    (hc : cacheOK m v) :
    (px, py) ∈ (ViewSystem.update v px py m).1 := by
  have hmem : (px, py) ∈ visAreaPure m px py v.viewRange := by
    rw [mem_visAreaPure]
    exact ⟨by omega, by omega, by omega, by omega, hg, hasLineOfSight_refl m px py⟩
  cases hmode : v.mode
  case permanent =>
    obtain ⟨h1, _, _, _, _, _, _⟩ := update_permanent_spec m v px py hmode hc
    exact (h1 (px, py)).mpr (Or.inl hmem)
  case instant =>
    obtain ⟨h1, _, _, _, _, _, _⟩ := update_instant_spec m v px py hmode hc
    rw [h1]
    exact hmem

/-- Witness for C10: on the 2 by 2 maze with a fresh permanent-mode
system, the viewer at (1,1) is inside the grid and its cell is in the
returned visible set. -/
theorem C10_viewer_cell_visible_witness :
    inGridB maze2x2 (1, 1) = true ∧ 1 ≤ (ViewSystem.mk0 VMode.permanent 1).viewRange ∧
    ((1 : Int), (1 : Int)) ∈ (ViewSystem.update (ViewSystem.mk0 VMode.permanent 1) 1 1 maze2x2).1 :=
  ⟨by decide, by decide,
    C10_viewer_cell_visible maze2x2 (ViewSystem.mk0 VMode.permanent 1) 1 1 (by decide)
      (by decide) (cacheOK_mk0 maze2x2 VMode.permanent 1)⟩

/-! ## GameLoop (game.js) -/

/-- Game.getCellKey: the JS string key "x,y" is an injective encoding of
the coordinate pair, so the pair itself serves as the key. -/
def getCellKey (x y : Int) : Pos := (x, y)

/-- The player record of game.js. -/
structure Player where
  x : Int
  y : Int
  prevX : Int
  prevY : Int
deriving DecidableEq, Repr

/-- The game-state record of game.js; startTime and endTime record the
ambient clock (Date.now), passed in explicitly as now below. -/
structure GState where
  isRunning : Bool
  isPaused : Bool
  isGameOver : Bool
  isVictory : Bool
  moves : Int
  startTime : Option Int
  endTime : Option Int
deriving DecidableEq, Repr

/-- The Game instance of game.js: configuration, state machine, maze,
player, bound ViewSystem, and the game loop's own explored and visited
cell sets. -/
structure Game where
  mazeSize : Int
  viewMode : VMode
  showSolution : Bool
  state : GState
  maze : Maze
  player : Player
  viewSystem : ViewSystem
  exploredCells : List Pos
  visitedCells : List Pos
deriving DecidableEq, Repr

/-- The domain events emitted by game.js, in emission order, with the
payload fields the claims mention (wall-clock time appears as the
difference of the injected now values). -/
inductive GEvent
  | move (fromP toP : Pos) (moves : Int)
  | cellExplored (x y : Int) (totalExplored : Nat) (totalCells : Int)
  | victoryEv (moves : Int) (time : Int) (exploreRate : Int)
      (explored : Nat) (totalCells : Int)
  | gameStart (mazeSize : Int) (mode : VMode) (startP endP : Pos)
  | gameOverEv (moves : Int) (time : Int)
deriving DecidableEq, Repr

/-- True exactly on cellExplored events. -/
def GEvent.isCellExploredEvB : GEvent → Bool
  | .cellExplored _ _ _ _ => true
  | _ => false

/-- True exactly on move events. -/
def GEvent.isMoveEvB : GEvent → Bool
  | .move _ _ _ => true
  | _ => false

/-- True exactly on victory events. -/
def GEvent.isVictoryEvB : GEvent → Bool
  | .victoryEv _ _ _ _ _ => true
  | _ => false

/-- Math.round(a / b) for b > 0, as exact integer arithmetic:
floor(a / b + 1/2). -/
def roundDiv (a b : Int) : Int := Int.fdiv (2 * a + b) (2 * b)

namespace Game

/-- The loop body of Game.updateVisibility: for one visible cell, if its
key is not yet in the game loop's exploredCells, add it and emit an
onCellExplored event carrying the running totals (the size read after
the add, and totalCells = mazeSize squared passed in as total). -/
def exploreStep (total : Int) (acc : List Pos × List GEvent) (c : Pos) :
    List Pos × List GEvent :=
  if getCellKey c.1 c.2 ∈ acc.1 then acc
  else (acc.1 ++ [getCellKey c.1 c.2],
        acc.2 ++ [GEvent.cellExplored c.1 c.2 (acc.1.length + 1) total])

/-- Game.updateVisibility of game.js: run ViewSystem.update at the
player position, then walk the (insertion-ordered) visible set marking
newly explored cells and emitting their events. -/
def updateVisibility (g : Game) : Game × List GEvent :=
  let uv := ViewSystem.update g.viewSystem g.player.x g.player.y g.maze
  let vs := uv.2
  let res := vs.visibleCells.foldl (exploreStep (g.mazeSize * g.mazeSize))
    (g.exploredCells, ([] : List GEvent))
  ({ g with viewSystem := vs, exploredCells := res.1 }, res.2)

/-- Game.victory of game.js: freeze the state machine in
Over(Victory) and build the victory event payload. -/
def victory (now : Int) (g : Game) : Game × GEvent :=
  let st := { g.state with
    isGameOver := true
    isVictory := true
    endTime := some now
    isRunning := false }
  let gameTime := Int.fdiv (now - (g.state.startTime.getD 0)) 1000
  let totalCells := g.mazeSize * g.mazeSize
  let exploreRate := roundDiv ((g.exploredCells.length : Int) * 100) totalCells
  ({ g with state := st },
    GEvent.victoryEv st.moves gameTime exploreRate g.exploredCells.length totalCells)

/-- Game.movePlayer of game.js.  Returns the JS boolean result together
with the state after the call and the list of events emitted during the
call, in emission order.  Note the source calls updateVisibility (which
emits the onCellExplored events) before it emits the onMove event. -/
def movePlayer (now : Int) (g : Game) (dx dy : Int) : Bool × Game × List GEvent :=
  if !g.state.isRunning || g.state.isPaused || g.state.isGameOver then (false, g, [])
  else if (dx = 0 ∧ dy = 0) ∨ 1 < |dx| ∨ 1 < |dy| then (false, g, [])
  else
    let newX := g.player.x + dx
    let newY := g.player.y + dy
    if newX < 0 ∨ g.mazeSize ≤ newX ∨ newY < 0 ∨ g.mazeSize ≤ newY then (false, g, [])
    else if !Maze.canMoveB g.maze g.player.x g.player.y dx dy then (false, g, [])
    else
      let player1 : Player :=
        { x := newX, y := newY, prevX := g.player.x, prevY := g.player.y }
      let g1 : Game := { g with
        player := player1
        state := { g.state with moves := g.state.moves + 1 }
        visitedCells := ViewSystem.addOne g.visitedCells (getCellKey newX newY) }
      let uv := updateVisibility g1
      let g2 := uv.1
      let moveEv := GEvent.move (getCellKey g.player.x g.player.y)
        (getCellKey newX newY) g1.state.moves
      if newX = g.maze.endP.1 ∧ newY = g.maze.endP.2 then
        let vr := victory now g2
        (true, vr.1, uv.2 ++ [moveEv, vr.2])
      else (true, g2, uv.2 ++ [moveEv])

/-- Game.setViewMode of game.js with a valid mode (the source rejects
strings other than permanent and instant; the enum makes that branch
unreachable): set the ViewSystem mode (clearing the cache), update the
configuration, and rerun updateVisibility. -/
def setViewMode (g : Game) (mode : VMode) : Game × List GEvent :=
  let vs := ViewSystem.setMode g.viewSystem mode
  let g1 := { g with viewSystem := vs, viewMode := mode }
  updateVisibility g1

/-- Game.isCellExplored. -/
def isCellExplored (g : Game) (x y : Int) : Bool :=
  decide (getCellKey x y ∈ g.exploredCells)

/-- Game.isCellVisited. -/
def isCellVisited (g : Game) (x y : Int) : Bool :=
  decide (getCellKey x y ∈ g.visitedCells)

/-- Game.init of game.js with an injected maze in place of the randomly
generated one (the claims quantify over the maze): player at start,
explored and visited sets holding the start key, a fresh ViewSystem
with viewRange 1, one updateVisibility run, and a fully reset state.
Events emitted during init are delivered to an empty listener registry
in the source (listeners attach after construction), so they are
dropped here. -/
def initWith (m : Maze) (mode : VMode) (size : Int) : Game :=
  let g0 : Game := {
    mazeSize := size
    viewMode := mode
    showSolution := false
    state := { isRunning := false, isPaused := false, isGameOver := false,
               isVictory := false, moves := 0, startTime := none, endTime := none }
    maze := m
    player := { x := m.start.1, y := m.start.2, prevX := m.start.1, prevY := m.start.2 }
    viewSystem := ViewSystem.mk0 mode 1
    exploredCells := [getCellKey m.start.1 m.start.2]
    visitedCells := [getCellKey m.start.1 m.start.2] }
  (updateVisibility g0).1

/-- Game.start of game.js (the onGameStart event is delivered to
listeners and does not change state). -/
def startGame (now : Int) (g : Game) : Game :=
  if g.state.isRunning then g
  else { g with
    state := { g.state with
      isRunning := true
      startTime := some now
      isGameOver := false
      isVictory := false } }

end Game

/-! ### Event and exploration lemmas for updateVisibility -/

/-- Every event produced by folding exploreStep over a cell list is a
cellExplored event (given the accumulator starts that way). -/
theorem foldl_exploreStep_events (t : Int) (cs : List Pos) :
    ∀ acc : List Pos × List GEvent,
      (∀ e ∈ acc.2, GEvent.isCellExploredEvB e = true) →
      ∀ e ∈ (cs.foldl (Game.exploreStep t) acc).2, GEvent.isCellExploredEvB e = true := by
  induction cs with
  | nil => intro acc h; simpa using h
  | cons c cs ih =>
    intro acc h
    simp only [List.foldl_cons]
    apply ih
    unfold Game.exploreStep
    split
    · exact h
    · intro e he
      simp only [List.mem_append, List.mem_singleton] at he
      rcases he with he | he
      · exact h e he
      · subst he; rfl

/-- Folding exploreStep only ever appends to the explored set. -/
theorem foldl_exploreStep_superset (t : Int) (cs : List Pos) :
    ∀ (acc : List Pos × List GEvent) (p : Pos),
      p ∈ acc.1 → p ∈ (cs.foldl (Game.exploreStep t) acc).1 := by
  induction cs with
  | nil => intro acc p h; simpa using h
  | cons c cs ih =>
    intro acc p h
    simp only [List.foldl_cons]
    apply ih
    unfold Game.exploreStep
    split
    · exact h
    · exact List.mem_append_left _ h

/-- All events emitted by Game.updateVisibility are cellExplored
events. -/
theorem updateVisibility_events_explored (g : Game) :
    ∀ e ∈ (Game.updateVisibility g).2, GEvent.isCellExploredEvB e = true := by
  unfold Game.updateVisibility
  exact foldl_exploreStep_events _ _ _ (by intro e he; simp at he)

/-- Game.updateVisibility never removes a cell from the game loop's
explored set. -/
theorem updateVisibility_explored_superset (g : Game) (p : Pos)
    (h : p ∈ g.exploredCells) : p ∈ (Game.updateVisibility g).1.exploredCells := by
  unfold Game.updateVisibility
  exact foldl_exploreStep_superset _ _ _ p h

/-- Game.movePlayer never removes a cell from the game loop's explored
set. -/
theorem movePlayer_explored_superset (now : Int) (g : Game) (dx dy : Int) (p : Pos)
    (h : p ∈ g.exploredCells) :
    p ∈ (Game.movePlayer now g dx dy).2.1.exploredCells := by
  simp only [Game.movePlayer]
  split
  · simpa using h
  · split
    · simpa using h
    · split
      · simpa using h
      · split
        · simpa using h
        · split
          · exact updateVisibility_explored_superset _ p h
          · exact updateVisibility_explored_superset _ p h

/-- Game.setViewMode never removes a cell from the game loop's explored
set. -/
theorem setViewMode_explored_superset (g : Game) (mode : VMode) (p : Pos)
    (h : p ∈ g.exploredCells) : p ∈ (Game.setViewMode g mode).1.exploredCells := by
  unfold Game.setViewMode
  exact updateVisibility_explored_superset _ p h

/-! ### Claims C1, C3, C6, C9 -/

/-- The four cardinal unit direction vectors (up, right, down, left), the
direction table the sources iterate over. -/
def dirs4 : List (Int × Int) := [(0, -1), (1, 0), (0, 1), (-1, 0)]

/-- A concrete fully open 3 by 3 maze (boundary walls only); start
(0,0), end (2,2). -/
def open3x3 : Maze :=
  { width := 3, height := 3,
    cells := [[true, true, true], [true, true, true], [true, true, true]],
    walls := { horizontal := [[true, true, true], [false, false, false],
                              [false, false, false], [true, true, true]],
               vertical := [[true, false, false, true], [true, false, false, true],
                            [true, false, false, true]] },
    start := (0, 0), endP := (2, 2), path := [] }

/-- A running game on the open 3 by 3 maze, player at the start cell. -/
def gameC1 : Game := Game.startGame 0 (Game.initWith open3x3 VMode.permanent 3)

/-- C1 counterexample: the vector check of movePlayer only rejects the
zero vector and components of magnitude above one, so the diagonal
vector (1,1) - which is not one of the four cardinal unit vectors -
passes it, and since canMove tests dx = 1 first, the move commits
whenever the wall to the right is open: on the open 3 by 3 maze the
call returns true, moves the player diagonally from (0,0) to (1,1) and
increments the move counter, contradicting the claim. -/
theorem C1_counterexample_diagonal_move_accepted :
    ((1 : Int), (1 : Int)) ∉ dirs4 ∧
    (Game.movePlayer 1 gameC1 1 1).1 = true ∧
    (Game.movePlayer 1 gameC1 1 1).2.1.player ≠ gameC1.player ∧
    (Game.movePlayer 1 gameC1 1 1).2.1.state.moves = gameC1.state.moves + 1 := by
  exact ⟨by decide, by decide, by decide, by decide⟩

/-- C1 amended: movePlayer rejects, with no state change and no events,
exactly the vectors its validity test covers: the zero vector and any
vector with a component of magnitude greater than one.  Diagonal unit
vectors pass that test (they are rejected only if the corresponding
wall blocks them), as the counterexample shows. -/
theorem C1_amended_invalid_vector_rejected (now : Int) (g : Game) (dx dy : Int)
    (h : (dx = 0 ∧ dy = 0) ∨ 1 < |dx| ∨ 1 < |dy|) :
    Game.movePlayer now g dx dy = (false, g, []) := by
  unfold Game.movePlayer
  by_cases hs : (!g.state.isRunning || g.state.isPaused || g.state.isGameOver) = true
  · rw [if_pos hs]
  · rw [if_neg hs, if_pos h]

/-- Witness for C1 amended at the concrete vector (2,0) on the running
game. -/
theorem C1_amended_invalid_vector_rejected_witness :
    (((2 : Int) = 0 ∧ (0 : Int) = 0) ∨ 1 < |(2 : Int)| ∨ 1 < |(0 : Int)|) ∧
    Game.movePlayer 0 gameC1 2 0 = (false, gameC1, []) :=
  ⟨by decide, C1_amended_invalid_vector_rejected 0 gameC1 2 0 (by decide)⟩

/-- The event order stated by claim C3: every move event precedes every
explored-cell event of the same call. -/
def moveBeforeExplored (evs : List GEvent) : Prop :=
  ∀ i j : Fin evs.length,
    GEvent.isMoveEvB (evs.get i) = true →
    GEvent.isCellExploredEvB (evs.get j) = true →
    (i : Nat) < (j : Nat)

instance (evs : List GEvent) : Decidable (moveBeforeExplored evs) := by
  unfold moveBeforeExplored
  infer_instance

/-- C3 counterexample: movePlayer calls updateVisibility (which emits
the onCellExplored events) before it emits the onMove event, so on an
accepted move that newly explores cells the explored events come first:
moving right from (0,0) on the open 3 by 3 maze emits two cellExplored
events and then the move event, violating the claimed order. -/
theorem C3_counterexample_explored_before_move :
    (Game.movePlayer 1 gameC1 1 0).1 = true ∧
    (Game.movePlayer 1 gameC1 1 0).2.2 =
      [GEvent.cellExplored 2 0 5 9, GEvent.cellExplored 2 1 6 9,
       GEvent.move (0, 0) (1, 0) 1] ∧
    ¬ moveBeforeExplored (Game.movePlayer 1 gameC1 1 0).2.2 := by
  exact ⟨by decide, by decide, by decide⟩

/-- C3 amended: on every accepted movePlayer call the emitted sequence
is: first the explored-cell events of that move (in visible-set order),
then the single move event, then a victory event if and only if the
destination is the end cell. -/
theorem C3_amended_event_order (now : Int) (g : Game) (dx dy : Int)
    (g2 : Game) (evs : List GEvent)
    (h : Game.movePlayer now g dx dy = (true, g2, evs)) :
    ∃ exs fromP toP n tail,
      evs = exs ++ GEvent.move fromP toP n :: tail ∧
      (∀ e ∈ exs, GEvent.isCellExploredEvB e = true) ∧
      (∀ e ∈ tail, GEvent.isVictoryEvB e = true) := by
  simp only [Game.movePlayer] at h
  split at h
  · simp at h
  · split at h
    · simp at h
    · split at h
      · simp at h
      · split at h
        · simp at h
        · split at h
          · simp only [Prod.mk.injEq] at h
            obtain ⟨-, -, hevs⟩ := h
            subst hevs
            refine ⟨_, _, _, _, _, rfl, ?_, ?_⟩
            · exact updateVisibility_events_explored _
            · intro e he
              simp only [List.mem_singleton] at he
              subst he
              rfl
          · simp only [Prod.mk.injEq] at h
            obtain ⟨-, -, hevs⟩ := h
            subst hevs
            refine ⟨_, _, _, _, _, rfl, ?_, ?_⟩
            · exact updateVisibility_events_explored _
            · intro e he
              simp at he

/-- Witness for C3 amended: the concrete accepted move right from
(0,0) on the running 3 by 3 game satisfies the hypothesis and the
theorem applies. -/
theorem C3_amended_event_order_witness :
    Game.movePlayer 1 gameC1 1 0 =
      (true, (Game.movePlayer 1 gameC1 1 0).2.1, (Game.movePlayer 1 gameC1 1 0).2.2) ∧
    ∃ exs fromP toP n tail,
      (Game.movePlayer 1 gameC1 1 0).2.2 = exs ++ GEvent.move fromP toP n :: tail ∧
      (∀ e ∈ exs, GEvent.isCellExploredEvB e = true) ∧
      (∀ e ∈ tail, GEvent.isVictoryEvB e = true) :=
  ⟨by decide,
    C3_amended_event_order 1 gameC1 1 0 (Game.movePlayer 1 gameC1 1 0).2.1
      (Game.movePlayer 1 gameC1 1 0).2.2 (by decide)⟩

/-- C6: every rejected movePlayer call - game not running, paused or
over, invalid vector, destination out of bounds, or wall blocking -
returns the failure flag with the entire game state unchanged and no
events emitted: every reject branch of the source returns before any
mutation. -/
theorem C6_rejected_move_is_noop (now : Int) (g : Game) (dx dy : Int)
    (g2 : Game) (evs : List GEvent)
    (h : Game.movePlayer now g dx dy = (false, g2, evs)) :
    g2 = g ∧ evs = [] := by
  simp only [Game.movePlayer] at h
  split at h
  · simp only [Prod.mk.injEq] at h
    exact ⟨h.2.1.symm, h.2.2.symm⟩
  · split at h
    · simp only [Prod.mk.injEq] at h
      exact ⟨h.2.1.symm, h.2.2.symm⟩
    · split at h
      · simp only [Prod.mk.injEq] at h
        exact ⟨h.2.1.symm, h.2.2.symm⟩
      · split at h
        · simp only [Prod.mk.injEq] at h
          exact ⟨h.2.1.symm, h.2.2.symm⟩
        · split at h
          · simp at h
          · simp at h

/-- Witness for C6: on the freshly initialized (not yet running) game
the move is rejected and the theorem applies. -/
theorem C6_rejected_move_is_noop_witness :
    Game.movePlayer 0 (Game.initWith open3x3 VMode.permanent 3) 1 0 =
      (false, Game.initWith open3x3 VMode.permanent 3, []) ∧
    (Game.initWith open3x3 VMode.permanent 3 = Game.initWith open3x3 VMode.permanent 3 ∧
      ([] : List GEvent) = []) :=
  ⟨by decide,
    C6_rejected_move_is_noop 0 (Game.initWith open3x3 VMode.permanent 3) 1 0
      (Game.initWith open3x3 VMode.permanent 3) [] (by decide)⟩

/-- The operations claim C9 quantifies over: movePlayer, setViewMode
and updateVisibility calls on one Game instance. -/
inductive GOp
  | moveOp (now dx dy : Int)
  | setModeOp (mode : VMode)
  | updVisOp
deriving DecidableEq, Repr

/-- Application of one operation to the game (the returned flag and
events are discarded; the retained state is the one the source leaves
in the instance). -/
def applyOp (g : Game) : GOp → Game
  | .moveOp now dx dy => (Game.movePlayer now g dx dy).2.1
  | .setModeOp mode => (Game.setViewMode g mode).1
  | .updVisOp => (Game.updateVisibility g).1

/-- Sequential application of a list of operations. -/
def applyOps (g : Game) (ops : List GOp) : Game := ops.foldl applyOp g

theorem applyOp_explored_superset (g : Game) (op : GOp) (p : Pos)
    (h : p ∈ g.exploredCells) : p ∈ (applyOp g op).exploredCells := by
  cases op with
  | moveOp now dx dy => exact movePlayer_explored_superset now g dx dy p h
  | setModeOp mode => exact setViewMode_explored_superset g mode p h
  | updVisOp => exact updateVisibility_explored_superset g p h

/-- C9: the game loop's own explored set is monotone: across any
sequence of movePlayer, setViewMode and updateVisibility calls, once
Game.isCellExplored is true it stays true - the set is only ever added
to (Instant mode only clears the ViewSystem's private set, never the
game loop's). -/
theorem C9_game_explored_monotone (g : Game) (ops : List GOp) (x y : Int)
    (h : Game.isCellExplored g x y = true) :
    Game.isCellExplored (applyOps g ops) x y = true := by
  induction ops generalizing g with
  | nil => exact h
  | cons op ops ih =>
    have h1 : Game.isCellExplored (applyOp g op) x y = true := by
      simp only [Game.isCellExplored, decide_eq_true_iff] at h ⊢
      exact applyOp_explored_superset g op _ h
    have h2 := ih (applyOp g op) h1
    simpa [applyOps, List.foldl_cons] using h2

/-- Witness for C9: the start cell of the running 3 by 3 game is
explored and stays explored across a concrete move followed by a switch
to instant mode. -/
theorem C9_game_explored_monotone_witness :
    Game.isCellExplored gameC1 0 0 = true ∧
    Game.isCellExplored
      (applyOps gameC1 [GOp.moveOp 1 1 0, GOp.setModeOp VMode.instant]) 0 0 = true :=
  ⟨by decide,
    C9_game_explored_monotone gameC1 [GOp.moveOp 1 1 0, GOp.setModeOp VMode.instant] 0 0
      (by decide)⟩

/-! ## Maze generation (maze.js) and the solution-path BFS -/

/-- One step from cell c by direction vector d. -/
def stepTo (c : Pos) (d : Int × Int) : Pos := (c.1 + d.1, c.2 + d.2)

/-- The open in-grid neighbours of a cell: targets of the four
directions that stay in the grid and whose connecting edge has no wall;
exactly the cells the BFS loops of maze.js will push from c. -/
def nbrs (m : Maze) (c : Pos) : List Pos :=
  (dirs4.filter (fun d =>
    inGridB m (stepTo c d) && Maze.canMoveB m c.1 c.2 d.1 d.2)).map (stepTo c)

/-- Existence of a walk of exactly n edges from a to b through the
maze graph; the independent reachability predicate the BFS claims are
verified against. -/
def walkB (m : Maze) : Nat → Pos → Pos → Bool
  | 0, a, b => decide (a = b)
  | n + 1, a, b => (nbrs m a).any (fun c => walkB m n c b)

/-- The BFS working state of Maze.calculatePath: the queue, the
visited marker array and the parent-pointer array (functions here; the
JS 2-dimensional arrays are only ever indexed in grid bounds). -/
structure BfsSt where
  queue : List Pos
  visited : Pos → Bool
  parent : Pos → Option Pos

/-- Mark n visited with parent c and push it. -/
def bfsVisit (c n : Pos) (st : BfsSt) : BfsSt :=
  { queue := st.queue ++ [n]
    visited := fun p => if p = n then true else st.visited p
    parent := fun p => if p = n then some c else st.parent p }

/-- One direction of the expansion loop of Maze.calculatePath for the
dequeued cell c: push the target when it is in grid, its edge is open,
and it is not yet visited. -/
def bfsStep (m : Maze) (c : Pos) (s : BfsSt) (d : Int × Int) : BfsSt :=
  let n := stepTo c d
  if inGridB m n && Maze.canMoveB m c.1 c.2 d.1 d.2 && !(s.visited n) then bfsVisit c n s
  else s

/-- The direction loop of Maze.calculatePath for the dequeued cell c:
in declared order (up, right, down, left), push each in-grid neighbour
whose edge is open and that is not yet visited. -/
def bfsExpand (m : Maze) (c : Pos) (st : BfsSt) : BfsSt :=
  dirs4.foldl (bfsStep m c) st

/-- Maze.buildPath: walk the parent pointers from c back to the root
(parent none), collecting the cells front to back.  Fuel bounds the
chain length; the BFS invariants bound every chain by the cell count. -/
def buildPath (P : Pos → Option Pos) : Nat → Pos → List Pos
  | 0, c => [c]
  | fuel + 1, c =>
    match P c with
    | none => [c]
    | some p => buildPath P fuel p ++ [c]

/-- The while loop of Maze.calculatePath: dequeue, return the rebuilt
path when the end cell is dequeued, otherwise expand.  Each iteration
removes one queue entry and every push marks a previously unvisited
cell, so (cell count + 1) iterations always suffice. -/
def bfsLoop (m : Maze) : Nat → BfsSt → List Pos
  | 0, _ => []
  | fuel + 1, st =>
    match st.queue with
    | [] => []
    | c :: rest =>
      if c = m.endP then buildPath st.parent (m.width.toNat * m.height.toNat + 1) c
      else bfsLoop m fuel (bfsExpand m c { st with queue := rest })

/-- Maze.calculatePath of maze.js: BFS from start with parent pointers;
the result is the shortest start-to-end path, or the empty list when
the end is unreachable. -/
def calculatePath (m : Maze) : List Pos :=
  bfsLoop m (m.width.toNat * m.height.toNat + 1)
    { queue := [m.start]
      visited := fun p => decide (p = m.start)
      parent := fun _ => none }

namespace Maze

/-- The seeded linear congruential generator installed over Math.random
by generateFixedLevel: seedValue = (seedValue * 9301 + 49297) % 233280,
value seedValue / 233280.  JS % is the truncated remainder, Int.tmod. -/
structure LCG where
  seedValue : Int
deriving DecidableEq, Repr

/-- One step of the LCG. -/
def lcgNext (r : LCG) : LCG := ⟨Int.tmod (r.seedValue * 9301 + 49297) 233280⟩

/-- Math.floor(Math.random() * n) under the LCG, in exact integer
arithmetic: draw, then floor(seedValue * n / 233280). -/
def randIndex (r : LCG) (n : Int) : Int × LCG :=
  let r1 := lcgNext r
  (Int.fdiv (r1.seedValue * n) 233280, r1)

/-- The four carving directions of maze.js. -/
inductive Dir
  | up
  | right
  | down
  | left
deriving DecidableEq, Repr

/-- Maze.init: all cells unvisited, all edges walled (the subsequent
setBoundaryWalls writes true over true and is a no-op), start (0,0),
end (width-1, height-1), empty path. -/
def init0 (width height : Int) : Maze :=
  { width := width, height := height,
    cells := List.replicate height.toNat (List.replicate width.toNat false),
    walls := { horizontal := List.replicate (height.toNat + 1) (List.replicate width.toNat true),
               vertical := List.replicate height.toNat (List.replicate (width.toNat + 1) true) },
    start := (0, 0), endP := (width - 1, height - 1), path := [] }

/-- Maze.removeWall. -/
def removeWall (m : Maze) (x y : Int) : Dir → Maze
  | .up =>
    { m with walls := { m.walls with horizontal := setAt2 m.walls.horizontal y x false } }
  | .right =>
    { m with walls := { m.walls with vertical := setAt2 m.walls.vertical y (x + 1) false } }
  | .down =>
    { m with walls := { m.walls with horizontal := setAt2 m.walls.horizontal (y + 1) x false } }
  | .left =>
    { m with walls := { m.walls with vertical := setAt2 m.walls.vertical y x false } }

/-- Mark cells[y][x] visited. -/
def markCell (m : Maze) (x y : Int) : Maze :=
  { m with cells := setAt2 m.cells y x true }

/-- Maze.getUnvisitedNeighbors, in declared order up, right, down,
left. -/
def unvisitedNeighbors (m : Maze) (x y : Int) : List (Int × Int × Dir) :=
  ([((0 : Int), (-1 : Int), Dir.up), (1, 0, Dir.right),
    (0, 1, Dir.down), (-1, 0, Dir.left)]).filterMap (fun t =>
    let nx := x + t.1
    let ny := y + t.2.1
    if 0 ≤ nx ∧ nx < m.width ∧ 0 ≤ ny ∧ ny < m.height ∧ jsGet2 m.cells ny nx = false then
      some (nx, ny, t.2.2)
    else none)

/-- The randomized depth-first carving loop of Maze.generate.  Each
iteration either pushes a newly visited cell or pops, so twice the cell
count plus two iterations always suffice.  A drawn index outside the
neighbour list (possible in JS only for negative seeds, where the
original would fault) is treated as a redraw. -/
def carveLoop : Nat → Maze → LCG → List Pos → Maze × LCG
  | 0, m, r, _ => (m, r)
  | _ + 1, m, r, [] => (m, r)
  | fuel + 1, m, r, c :: rest =>
    let ns := unvisitedNeighbors m c.1 c.2
    if 0 < ns.length then
      let ir := randIndex r (ns.length : Int)
      match ns[ir.1.toNat]? with
      | some nb =>
        let m1 := removeWall m c.1 c.2 nb.2.2
        let m2 := markCell m1 nb.1 nb.2.1
        carveLoop fuel m2 ir.2 ((nb.1, nb.2.1) :: c :: rest)
      | none => carveLoop fuel m ir.2 (c :: rest)
    else carveLoop fuel m r rest

/-- The do-while loop drawing the end cell until it differs from the
start; fuel 233280 covers the full period of the LCG (on exhaustion the
last draw is returned; the JS loop would spin forever on a constant
generator). -/
def pickEndLoop (width height sx sy : Int) : Nat → LCG → Int × Int × LCG
  | 0, r =>
    let ex := randIndex r width
    let ey := randIndex ex.2 height
    (ex.1, ey.1, ey.2)
  | fuel + 1, r =>
    let ex := randIndex r width
    let ey := randIndex ex.2 height
    if ex.1 = sx ∧ ey.1 = sy then pickEndLoop width height sx sy fuel ey.2
    else (ex.1, ey.1, ey.2)

/-- The BFS of Maze.ensurePathExists: true iff the end cell is reached
from the start over the carved edges. -/
def epeLoop (m : Maze) : Nat → List Pos → (Pos → Bool) → Bool
  | 0, _, _ => false
  | _ + 1, [], _ => false
  | fuel + 1, c :: rest, vis =>
    if c = m.endP then true
    else
      let qv := dirs4.foldl (fun (acc : List Pos × (Pos → Bool)) d =>
        let n := stepTo c d
        if inGridB m n && Maze.canMoveB m c.1 c.2 d.1 d.2 && !(acc.2 n) then
          (acc.1 ++ [n], fun p => if p = n then true else acc.2 p)
        else acc) (rest, vis)
      epeLoop m fuel qv.1 qv.2

/-- Maze.createPathToEnd: walk from the start toward the end,
horizontal first, removing each wall crossed and marking each cell
reached; the manhattan distance bounds the iteration count. -/
def cpteLoop : Nat → Maze → Int → Int → Maze
  | 0, m, _, _ => m
  | fuel + 1, m, x, y =>
    if x = m.endP.1 ∧ y = m.endP.2 then m
    else if x < m.endP.1 then
      let m1 := { m with walls := { m.walls with vertical := setAt2 m.walls.vertical y (x + 1) false } }
      cpteLoop fuel (markCell m1 (x + 1) y) (x + 1) y
    else if m.endP.1 < x then
      let m1 := { m with walls := { m.walls with vertical := setAt2 m.walls.vertical y x false } }
      cpteLoop fuel (markCell m1 (x - 1) y) (x - 1) y
    else if y < m.endP.2 then
      let m1 := { m with walls := { m.walls with horizontal := setAt2 m.walls.horizontal (y + 1) x false } }
      cpteLoop fuel (markCell m1 x (y + 1)) x (y + 1)
    else
      let m1 := { m with walls := { m.walls with horizontal := setAt2 m.walls.horizontal y x false } }
      cpteLoop fuel (markCell m1 x (y - 1)) x (y - 1)

/-- Maze.ensurePathExists: BFS connectivity check, with the forced
manhattan path as fallback. -/
def ensurePathExists (m : Maze) : Maze :=
  if epeLoop m (m.width.toNat * m.height.toNat + 1) [m.start] (fun p => decide (p = m.start)) then
    m
  else cpteLoop (m.width.toNat + m.height.toNat + 1) m m.start.1 m.start.2

/-- Maze.generate of maze.js, with the random source explicit: reset,
draw the start, draw the end until distinct, carve depth-first from the
start, ensure connectivity, and compute the solution path. -/
def generate (width height : Int) (r : LCG) : Maze × LCG :=
  let m0 := init0 width height
  let sx := randIndex r width
  let sy := randIndex sx.2 height
  let pe := pickEndLoop width height sx.1 sy.1 233280 sy.2
  let m1 := { m0 with start := (sx.1, sy.1), endP := (pe.1, pe.2.1) }
  let m2 := markCell m1 sx.1 sy.1
  let cr := carveLoop (2 * (width.toNat * height.toNat) + 2) m2 pe.2.2 [(sx.1, sy.1)]
  let m3 := ensurePathExists cr.1
  ({ m3 with path := calculatePath m3 }, cr.2)

/-- Maze.generateFixedLevel of maze.js: set seed = level * 12345,
replace Math.random by the seeded LCG for the duration of the
generate() call, and restore the original afterwards; the ambient
generator therefore passes through untouched and unconsulted. -/
def generateFixedLevel (size level : Int) (ambient : LCG) : Maze × LCG :=
  ((generate size size ⟨level * 12345⟩).1, ambient)

end Maze

/-- C8: two independent seeded generations with the same (seed, size)
pair - whatever the ambient random state of either run - produce
identical wall arrays, start, end, and solution path: the installed
generator depends only on level * 12345, and generate consumes no other
source of randomness. -/
theorem C8_fixed_level_deterministic (size level : Int) (a1 a2 : Maze.LCG) :
    (Maze.generateFixedLevel size level a1).1.walls =
      (Maze.generateFixedLevel size level a2).1.walls ∧
    (Maze.generateFixedLevel size level a1).1.start =
      (Maze.generateFixedLevel size level a2).1.start ∧
    (Maze.generateFixedLevel size level a1).1.endP =
      (Maze.generateFixedLevel size level a2).1.endP ∧
    (Maze.generateFixedLevel size level a1).1.path =
      (Maze.generateFixedLevel size level a2).1.path :=
  ⟨rfl, rfl, rfl, rfl⟩

/-! ### Walks and graph distance -/

theorem walkB_zero {m : Maze} {a b : Pos} : walkB m 0 a b = true ↔ a = b := by
  simp [walkB]

theorem walkB_succ {m : Maze} {n : Nat} {a b : Pos} :
    walkB m (n + 1) a b = true ↔ ∃ c ∈ nbrs m a, walkB m n c b = true := by
  simp [walkB, List.any_eq_true]

/-- A walk can be extended at its far end by one neighbour step. -/
theorem walk_snoc {m : Maze} {n : Nat} {s u v : Pos}
    (h : walkB m n s u = true) (hv : v ∈ nbrs m u) : walkB m (n + 1) s v = true := by
  induction n generalizing s with
  | zero =>
    rw [walkB_zero] at h
    subst h
    exact walkB_succ.mpr ⟨v, hv, walkB_zero.mpr rfl⟩
  | succ n ih =>
    obtain ⟨c, hc, hw⟩ := walkB_succ.mp h
    exact walkB_succ.mpr ⟨c, hc, ih hw⟩

/-- A nonempty walk decomposes at its far end. -/
theorem walk_back {m : Maze} {n : Nat} {a b : Pos}
    (h : walkB m (n + 1) a b = true) :
    ∃ v, b ∈ nbrs m v ∧ walkB m n a v = true := by
  induction n generalizing a with
  | zero =>
    obtain ⟨c, hc, hw⟩ := walkB_succ.mp h
    rw [walkB_zero] at hw
    subst hw
    exact ⟨a, hc, walkB_zero.mpr rfl⟩
  | succ n ih =>
    obtain ⟨c, hc, hw⟩ := walkB_succ.mp h
    obtain ⟨v, hbv, hav⟩ := ih hw
    exact ⟨v, hbv, walkB_succ.mpr ⟨c, hc, hav⟩⟩

/-- A set of cells closed under neighbour steps absorbs walks. -/
theorem walk_closure {m : Maze} {V : Pos → Bool}
    (hcl : ∀ u, V u = true → ∀ v ∈ nbrs m u, V v = true) {n : Nat} {a b : Pos}
    (ha : V a = true) (h : walkB m n a b = true) : V b = true := by
  induction n generalizing a with
  | zero => rw [walkB_zero] at h; subst h; exact ha
  | succ n ih =>
    obtain ⟨c, hc, hw⟩ := walkB_succ.mp h
    exact ih (hcl a ha c hc) hw

/-- b is at graph distance exactly k from a: a walk of length k exists
and no shorter one does. -/
def distIs (m : Maze) (a b : Pos) (k : Nat) : Prop :=
  walkB m k a b = true ∧ ∀ j < k, walkB m j a b = false

theorem distIs_unique {m : Maze} {a b : Pos} {k k' : Nat}
    (h : distIs m a b k) (h' : distIs m a b k') : k = k' := by
  rcases lt_trichotomy k k' with hlt | he | hgt
  · exact absurd h.1 (by rw [h'.2 k hlt]; simp)
  · exact he
  · exact absurd h'.1 (by rw [h.2 k' hgt]; simp)

theorem distIs_exists {m : Maze} {a b : Pos} {n : Nat}
    (h : walkB m n a b = true) : ∃ k, k ≤ n ∧ distIs m a b k := by
  have hex : ∃ j, walkB m j a b = true := ⟨n, h⟩
  refine ⟨Nat.find hex, Nat.find_min' hex h, Nat.find_spec hex, ?_⟩
  intro j hj
  have := Nat.find_min hex hj
  exact Bool.not_eq_true _ ▸ eq_false_of_ne_true this

theorem distIs_self (m : Maze) (a : Pos) : distIs m a a 0 :=
  ⟨walkB_zero.mpr rfl, fun j hj => absurd hj (Nat.not_lt_zero j)⟩

/-! ### Parent-pointer chains -/

/-- ChainL m P s u l: following the parent pointers P from u reaches the
root s, l is the resulting cell list from s to u, and every parent link
is a neighbour step of the maze graph. -/
inductive ChainL (m : Maze) (P : Pos → Option Pos) (s : Pos) : Pos → List Pos → Prop
  | refl : ChainL m P s s [s]
  | step {c p : Pos} {l : List Pos} : P c = some p → c ∈ nbrs m p →
      ChainL m P s p l → ChainL m P s c (l ++ [c])

theorem ChainL.ne_nil {m : Maze} {P : Pos → Option Pos} {s u : Pos} {l : List Pos}
    (h : ChainL m P s u l) : l ≠ [] := by
  cases h with
  | refl => simp
  | step _ _ _ => simp

theorem ChainL.head {m : Maze} {P : Pos → Option Pos} {s u : Pos} {l : List Pos}
    (h : ChainL m P s u l) : l.head? = some s := by
  induction h with
  | refl => rfl
  | step hp hn hc ih =>
    rename_i c' p' l'
    cases hl : l' with
    | nil => exact absurd hl hc.ne_nil
    | cons a t => rw [hl] at ih; simpa using ih

theorem ChainL.last {m : Maze} {P : Pos → Option Pos} {s u : Pos} {l : List Pos}
    (h : ChainL m P s u l) : l.getLast? = some u := by
  cases h with
  | refl => rfl
  | step _ _ _ => exact List.getLast?_concat _

theorem ChainL.walk {m : Maze} {P : Pos → Option Pos} {s u : Pos} {l : List Pos}
    (h : ChainL m P s u l) : walkB m (l.length - 1) s u = true := by
  induction h with
  | refl => exact walkB_zero.mpr rfl
  | step hp hn hc ih =>
    rename_i c' p' l'
    have h1 : (l' ++ [c']).length - 1 = l'.length - 1 + 1 := by
      have := List.length_pos.mpr hc.ne_nil
      simp only [List.length_append, List.length_cons, List.length_nil]
      omega
    rw [h1]
    exact walk_snoc ih hn

/-- A chain is unaffected by parent updates outside its own cells. -/
theorem ChainL.congr {m : Maze} {P P' : Pos → Option Pos} {s u : Pos} {l : List Pos}
    (h : ChainL m P s u l) (hagree : ∀ x ∈ l, P' x = P x) : ChainL m P' s u l := by
  induction h with
  | refl => exact ChainL.refl
  | step hp hn hc ih =>
    refine ChainL.step ?_ hn (ih ?_)
    · rw [hagree _ (by simp)]; exact hp
    · intro x hx
      exact hagree x (by simp [hx])

/-- The list Chain' of neighbour steps underlying a parent chain. -/
theorem ChainL.chain' {m : Maze} {P : Pos → Option Pos} {s u : Pos} {l : List Pos}
    (h : ChainL m P s u l) : l.Chain' (fun a b => b ∈ nbrs m a) := by
  induction h with
  | refl => simp
  | step hp hn hc ih =>
    rw [List.chain'_append]
    refine ⟨ih, by simp, ?_⟩
    intro x hx y hy
    simp only [List.head?_cons, Option.mem_def, Option.some.injEq] at hy
    subst hy
    rw [hc.last] at hx
    simp only [Option.mem_def, Option.some.injEq] at hx
    subst hx
    exact hn

/-- buildPath computes exactly the chain list once the fuel covers the
chain length (the root has no parent, so the walk stops there). -/
theorem ChainL.buildPath_eq {m : Maze} {P : Pos → Option Pos} {s u : Pos} {l : List Pos}
    (h : ChainL m P s u l) (hroot : P s = none) :
    ∀ fuel : Nat, l.length ≤ fuel + 1 → buildPath P fuel u = l := by
  induction h with
  | refl =>
    intro fuel _
    cases fuel with
    | zero => rfl
    | succ fuel => simp [buildPath, hroot]
  | step hp hn hc ih =>
    intro fuel hlen
    simp only [List.length_append, List.length_cons, List.length_nil] at hlen
    cases fuel with
    | zero =>
      exact absurd (List.length_eq_zero.mp (by omega)) hc.ne_nil
    | succ fuel =>
      simp only [buildPath, hp]
      rw [ih fuel (by omega)]

/-! ### Grid cardinality and neighbour facts -/

/-- The grid cells as a finite set. -/
def gridFinset (m : Maze) : Finset Pos :=
  Finset.Icc 0 (m.width - 1) ×ˢ Finset.Icc 0 (m.height - 1)

theorem mem_gridFinset {m : Maze} {p : Pos} :
    p ∈ gridFinset m ↔ inGridB m p = true := by
  unfold gridFinset inGridB
  rw [Finset.mem_product, Finset.mem_Icc, Finset.mem_Icc]
  simp only [Bool.and_eq_true, decide_eq_true_iff]
  constructor
  · intro h
    obtain ⟨⟨h1, h2⟩, h3, h4⟩ := h
    exact ⟨⟨⟨h1, by omega⟩, h3⟩, by omega⟩
  · intro h
    obtain ⟨⟨⟨h1, h2⟩, h3⟩, h4⟩ := h
    exact ⟨⟨h1, by omega⟩, h3, by omega⟩

theorem card_gridFinset (m : Maze) :
    (gridFinset m).card = m.width.toNat * m.height.toNat := by
  unfold gridFinset
  rw [Finset.card_product, Int.card_Icc, Int.card_Icc]
  congr 1 <;> omega

/-- The single-step validity used by the claim: one of the four unit
directions with the connecting edge open. -/
def stepOk (m : Maze) (a b : Pos) : Prop :=
  ∃ d ∈ dirs4, b = stepTo a d ∧ Maze.canMoveB m a.1 a.2 d.1 d.2 = true

theorem nbrs_inGrid {m : Maze} {c v : Pos} (h : v ∈ nbrs m c) : inGridB m v = true := by
  unfold nbrs at h
  obtain ⟨d, hd, rfl⟩ := List.mem_map.mp h
  have hm := List.mem_filter.mp hd
  simp only [Bool.and_eq_true] at hm
  exact hm.2.1

theorem nbrs_stepOk {m : Maze} {c v : Pos} (h : v ∈ nbrs m c) : stepOk m c v := by
  unfold nbrs at h
  obtain ⟨d, hd, rfl⟩ := List.mem_map.mp h
  have hm := List.mem_filter.mp hd
  simp only [Bool.and_eq_true] at hm
  exact ⟨d, hm.1, rfl, hm.2.2⟩

theorem stepTo_injOn (c : Pos) (d e : Int × Int) (h : stepTo c d = stepTo c e) : d = e := by
  unfold stepTo at h
  rcases Prod.ext_iff.mp h with ⟨h1, h2⟩
  simp only at h1 h2
  exact Prod.ext (by omega) (by omega)

theorem nbrs_nodup (m : Maze) (c : Pos) : (nbrs m c).Nodup := by
  unfold nbrs
  refine List.Nodup.map_on ?_ (List.Nodup.filter _ ?_)
  · intro x hx y hy hxy
    exact stepTo_injOn c x y hxy
  · decide

theorem dirs4_targets_nodup (c : Pos) : (dirs4.map (stepTo c)).Nodup := by
  refine List.Nodup.map_on ?_ (by decide)
  intro x hx y hy hxy
  exact stepTo_injOn c x y hxy

/-! ### Characterization of bfsExpand -/

/-- The cells the expansion of c pushes, for an arbitrary direction
list: targets of passing directions that are not yet visited. -/
def newsFor (m : Maze) (c : Pos) (ds : List (Int × Int)) (V : Pos → Bool) : List Pos :=
  ((ds.filter (fun d => inGridB m (stepTo c d) && Maze.canMoveB m c.1 c.2 d.1 d.2)).map
    (stepTo c)).filter (fun n => !(V n))

/-- The unvisited open neighbours of c (the cells one expansion of c
pushes). -/
def newCells (m : Maze) (c : Pos) (V : Pos → Bool) : List Pos :=
  (nbrs m c).filter (fun n => !(V n))

theorem newsFor_dirs4 (m : Maze) (c : Pos) (V : Pos → Bool) :
    newsFor m c dirs4 V = newCells m c V := rfl

theorem mem_newCells {m : Maze} {c : Pos} {V : Pos → Bool} {n : Pos} :
    n ∈ newCells m c V ↔ n ∈ nbrs m c ∧ V n = false := by
  unfold newCells
  rw [List.mem_filter]
  simp

theorem newCells_nodup (m : Maze) (c : Pos) (V : Pos → Bool) :
    (newCells m c V).Nodup :=
  (nbrs_nodup m c).filter _

theorem bfsExpandGo_spec (m : Maze) (c : Pos) :
    ∀ ds : List (Int × Int), (ds.map (stepTo c)).Nodup →
    ∀ st : BfsSt,
      (ds.foldl (bfsStep m c) st).queue = st.queue ++ newsFor m c ds st.visited ∧
      (∀ p, (ds.foldl (bfsStep m c) st).visited p = true ↔
        (st.visited p = true ∨ p ∈ newsFor m c ds st.visited)) ∧
      (∀ p ∈ newsFor m c ds st.visited, (ds.foldl (bfsStep m c) st).parent p = some c) ∧
      (∀ p, p ∉ newsFor m c ds st.visited →
        (ds.foldl (bfsStep m c) st).parent p = st.parent p) := by
  intro ds
  induction ds with
  | nil =>
    intro _ st
    refine ⟨by simp [newsFor], ?_, ?_, ?_⟩
    · intro p; simp [newsFor]
    · intro p hp; simp [newsFor] at hp
    · intro p _; rfl
  | cons d ds ih =>
    intro hnd st
    have hnd' : (ds.map (stepTo c)).Nodup := by
      simp only [List.map_cons, List.nodup_cons] at hnd
      exact hnd.2
    have hnotin : stepTo c d ∉ ds.map (stepTo c) := by
      simp only [List.map_cons, List.nodup_cons] at hnd
      exact hnd.1
    by_cases hcnd : (inGridB m (stepTo c d) && Maze.canMoveB m c.1 c.2 d.1 d.2) = true
    · by_cases hv : st.visited (stepTo c d) = true
      · -- direction passes but target already visited: no push
        have hstep : bfsStep m c st d = st := by
          simp only [bfsStep]
          rw [if_neg]
          simp [hcnd, hv]
        have hnews : newsFor m c (d :: ds) st.visited = newsFor m c ds st.visited := by
          unfold newsFor
          rw [List.filter_cons, if_pos hcnd, List.map_cons, List.filter_cons]
          rw [if_neg (by simp [hv])]
        rw [List.foldl_cons, hstep, hnews]
        exact ih hnd' st
      · -- push the new cell
        rw [Bool.not_eq_true] at hv
        have hstep : bfsStep m c st d = bfsVisit c (stepTo c d) st := by
          simp only [bfsStep]
          rw [if_pos]
          simp [hcnd, hv]
        have hnewsD : newsFor m c (d :: ds) st.visited =
            stepTo c d :: newsFor m c ds st.visited := by
          unfold newsFor
          rw [List.filter_cons, if_pos hcnd, List.map_cons, List.filter_cons]
          rw [if_pos (by simp [hv])]
        -- the updated visited function agrees with the old one on every
        -- target of the remaining directions
        have hagree : newsFor m c ds (bfsVisit c (stepTo c d) st).visited =
            newsFor m c ds st.visited := by
          unfold newsFor
          apply List.filter_congr
          intro t ht
          have htds : t ∈ ds.map (stepTo c) := by
            obtain ⟨e, he, rfl⟩ := List.mem_map.mp ht
            exact List.mem_map.mpr ⟨e, (List.mem_filter.mp he).1, rfl⟩
          have htn : t ≠ stepTo c d := fun h => hnotin (h ▸ htds)
          simp only [bfsVisit]
          rw [if_neg htn]
        obtain ⟨ihq, ihv, ihpn, ihpo⟩ := ih hnd' (bfsVisit c (stepTo c d) st)
        rw [List.foldl_cons, hstep, hnewsD]
        rw [hagree] at ihq ihv ihpn ihpo
        refine ⟨?_, ?_, ?_, ?_⟩
        · rw [ihq]
          simp [bfsVisit]
        · intro p
          rw [ihv]
          simp only [bfsVisit]
          by_cases hpn : p = stepTo c d
          · subst hpn
            simp
          · rw [if_neg hpn]
            simp only [List.mem_cons]
            tauto
        · intro p hp
          rcases List.mem_cons.mp hp with hpe | hp2
          · have hnot : p ∉ newsFor m c ds st.visited := by
              intro hmem
              apply hnotin
              rw [← hpe]
              unfold newsFor at hmem
              obtain ⟨e, he, heq⟩ := List.mem_map.mp (List.mem_filter.mp hmem).1
              exact List.mem_map.mpr ⟨e, (List.mem_filter.mp he).1, heq⟩
            rw [ihpo p hnot]
            simp only [bfsVisit]
            rw [if_pos hpe]
          · exact ihpn p hp2
        · intro p hp
          rw [List.mem_cons] at hp
          push_neg at hp
          rw [ihpo p hp.2]
          simp only [bfsVisit]
          rw [if_neg hp.1]
    · -- direction fails the grid or wall test: no push, not in news
      have hcof : ¬ ((inGridB m (stepTo c d) && Maze.canMoveB m c.1 c.2 d.1 d.2 &&
          !(st.visited (stepTo c d))) = true) := by
        rw [Bool.and_eq_true]
        rintro ⟨h1, -⟩
        exact hcnd h1
      have hstep : bfsStep m c st d = st := by
        simp only [bfsStep]
        rw [if_neg hcof]
      have hnews : newsFor m c (d :: ds) st.visited = newsFor m c ds st.visited := by
        unfold newsFor
        rw [List.filter_cons, if_neg hcnd]
      rw [List.foldl_cons, hstep, hnews]
      exact ih hnd' st

/-! ### The BFS invariant -/

/-- Number of unvisited grid cells, the decreasing BFS potential. -/
def ucount (m : Maze) (V : Pos → Bool) : Nat :=
  ((gridFinset m).filter (fun p => V p = false)).card

theorem pairwise_rel_congr {f g : Pos → Nat} {R : Nat → Nat → Prop} {l : List Pos}
    (h : ∀ x ∈ l, f x = g x) (hp : l.Pairwise (fun a b => R (f a) (f b))) :
    l.Pairwise (fun a b => R (g a) (g b)) := by
  induction l with
  | nil => exact List.Pairwise.nil
  | cons a t ih =>
    rw [List.pairwise_cons] at hp ⊢
    constructor
    · intro b hb
      rw [← h a (by simp), ← h b (by simp [hb])]
      exact hp.1 b hb
    · exact ih (fun x hx => h x (by simp [hx])) hp.2

theorem pairwise_of_const {f : Pos → Nat} {l : List Pos} {k : Nat}
    (h : ∀ x ∈ l, f x = k) : l.Pairwise (fun a b => f a ≤ f b) := by
  induction l with
  | nil => exact List.Pairwise.nil
  | cons a t ih =>
    rw [List.pairwise_cons]
    refine ⟨fun b hb => ?_, ih (fun x hx => h x (by simp [hx]))⟩
    rw [h a (by simp), h b (by simp [hb])]

theorem pairwise_le_getLast {f : Pos → Nat} {l : List Pos} {z : Pos}
    (hp : l.Pairwise (fun a b => f a < f b)) (hz : l.getLast? = some z) :
    ∀ a ∈ l, f a ≤ f z := by
  induction l with
  | nil => simp at hz
  | cons x t ih =>
    rw [List.pairwise_cons] at hp
    intro a ha
    cases t with
    | nil =>
      simp only [List.getLast?_singleton, Option.some.injEq] at hz
      simp only [List.mem_singleton] at ha
      subst hz; subst ha
      exact le_refl _
    | cons y t' =>
      rw [List.getLast?_cons_cons] at hz
      rcases List.mem_cons.mp ha with rfl | ha2
      · exact le_of_lt (hp.1 z (List.mem_of_mem_getLast? hz))
      · exact ih hp.2 hz a ha2

theorem nodup_of_pairwise_lt {f : Pos → Nat} {l : List Pos}
    (hp : l.Pairwise (fun a b => f a < f b)) : l.Nodup :=
  hp.imp (fun hab he => absurd (he ▸ hab) (lt_irrefl _))

/-- The invariant of the calculatePath BFS loop: lv assigns every
visited cell its exact graph distance from start; parent chains realize
those distances; the queue is sorted by level and spans at most two
levels; all cells up to the head level are already visited; visited
cells off the queue have all neighbours visited. -/
structure BfsInv (m : Maze) (st : BfsSt) (lv : Pos → Nat) : Prop where
  qVisited : ∀ c ∈ st.queue, st.visited c = true
  sVisited : st.visited m.start = true
  sParent : st.parent m.start = none
  unvisParent : ∀ u, st.visited u = false → st.parent u = none
  level : ∀ u, st.visited u = true → distIs m m.start u (lv u)
  chains : ∀ u, st.visited u = true → ∃ l, ChainL m st.parent m.start u l ∧
    l.length = lv u + 1 ∧ (∀ x ∈ l, st.visited x = true) ∧
    l.Pairwise (fun a b => lv a < lv b)
  closure : ∀ u, st.visited u = true → u ∉ st.queue → ∀ v ∈ nbrs m u, st.visited v = true
  qSorted : st.queue.Pairwise (fun a b => lv a ≤ lv b)
  qSpread : ∀ c0, st.queue.head? = some c0 → ∀ x ∈ st.queue, lv x ≤ lv c0 + 1
  qFrontier : ∀ c0, st.queue.head? = some c0 →
    ∀ u k, distIs m m.start u k → k ≤ lv c0 → st.visited u = true
  visGrid : ∀ u, st.visited u = true → u = m.start ∨ inGridB m u = true

/-- With end still pending, the queue cannot be empty while the end is
reachable: an empty queue makes the visited set closed under neighbour
steps, so the end would be visited, hence queued. -/
theorem bfs_queue_ne_nil {m : Maze} {st : BfsSt} {lv : Pos → Nat}
    (hinv : BfsInv m st lv) (hreach : ∃ n, walkB m n m.start m.endP = true)
    (hpend : st.visited m.endP = true → m.endP ∈ st.queue) : st.queue ≠ [] := by
  intro hq
  obtain ⟨n, hw⟩ := hreach
  have hcl : ∀ u, st.visited u = true → ∀ v ∈ nbrs m u, st.visited v = true :=
    fun u hu => hinv.closure u hu (by simp [hq])
  have hv := walk_closure hcl hinv.sVisited hw
  have := hpend hv
  rw [hq] at this
  simp at this

/-- Every cell newly pushed by expanding the head c sits at level
lv c + 1. -/
theorem newCells_dist {m : Maze} {st : BfsSt} {lv : Pos → Nat} {c : Pos} {rest : List Pos}
    (hinv : BfsInv m st lv) (hq : st.queue = c :: rest) {n : Pos}
    (hn : n ∈ newCells m c st.visited) : distIs m m.start n (lv c + 1) := by
  obtain ⟨hnb, hnv⟩ := mem_newCells.mp hn
  have hcv : st.visited c = true := hinv.qVisited c (by rw [hq]; simp)
  have hdc := hinv.level c hcv
  constructor
  · exact walk_snoc hdc.1 hnb
  · intro j hj
    by_contra hw
    rw [Bool.not_eq_false] at hw
    obtain ⟨k, hk, hdk⟩ := distIs_exists hw
    have hvis := hinv.qFrontier c (by rw [hq]; rfl) n k hdk (by omega)
    rw [hvis] at hnv
    exact Bool.true_eq_false.mp hnv

/-- The level assignment after expanding c: newly pushed cells sit one
level above c, everything else keeps its level. -/
def lvUpd (lv : Pos → Nat) (news : List Pos) (k : Nat) : Pos → Nat :=
  fun p => if p ∈ news then k else lv p

/-- Expanding the dequeued head preserves the BFS invariant, appends
exactly the unvisited open neighbours to the queue, and pays one unit
of potential. -/
theorem bfs_expand_inv {m : Maze} {st : BfsSt} {lv : Pos → Nat} {c : Pos} {rest : List Pos}
    (hinv : BfsInv m st lv) (hq : st.queue = c :: rest) :
    BfsInv m (bfsExpand m c { st with queue := rest })
      (lvUpd lv (newCells m c st.visited) (lv c + 1)) ∧
    lvUpd lv (newCells m c st.visited) (lv c + 1) c = lv c ∧
    (bfsExpand m c { st with queue := rest }).queue = rest ++ newCells m c st.visited ∧
    (∀ p, (bfsExpand m c { st with queue := rest }).visited p = true ↔
      (st.visited p = true ∨ p ∈ newCells m c st.visited)) ∧
    ucount m (bfsExpand m c { st with queue := rest }).visited +
      (newCells m c st.visited).length = ucount m st.visited := by
  obtain ⟨hque0, hvis0, hpnew0, hpold0⟩ :=
    bfsExpandGo_spec m c dirs4 (dirs4_targets_nodup c) { st with queue := rest }
  have hex : bfsExpand m c { st with queue := rest } =
      dirs4.foldl (bfsStep m c) { st with queue := rest } := rfl
  rw [← hex] at hque0 hvis0 hpnew0 hpold0
  simp only [newsFor_dirs4] at hque0 hvis0 hpnew0 hpold0
  set st' := bfsExpand m c { st with queue := rest } with hst'
  set news := newCells m c st.visited with hnewsdef
  -- basic facts
  have hhead : st.queue.head? = some c := by rw [hq]; rfl
  have hcv : st.visited c = true := hinv.qVisited c (by rw [hq]; simp)
  have hdc := hinv.level c hcv
  have hnewsv : ∀ n ∈ news, st.visited n = false := fun n hn => (mem_newCells.mp hn).2
  have hnewsnb : ∀ n ∈ news, n ∈ nbrs m c := fun n hn => (mem_newCells.mp hn).1
  have hndist : ∀ n ∈ news, distIs m m.start n (lv c + 1) :=
    fun n hn => newCells_dist hinv hq hn
  have hnin : ∀ u, st.visited u = true → u ∉ news := by
    intro u hu hm
    rw [hnewsv u hm] at hu
    simp at hu
  have hlvold : ∀ u, st.visited u = true → lvUpd lv news (lv c + 1) u = lv u := by
    intro u hu
    simp only [lvUpd]
    rw [if_neg (hnin u hu)]
  have hlvnew : ∀ n ∈ news, lvUpd lv news (lv c + 1) n = lv c + 1 := by
    intro n hn
    simp only [lvUpd]
    rw [if_pos hn]
  have hparold : ∀ p, st.visited p = true → st'.parent p = st.parent p :=
    fun p hp => hpold0 p (hnin p hp)
  have hqs0 := hinv.qSorted
  rw [hq, List.pairwise_cons] at hqs0
  have hsprd := hinv.qSpread c hhead
  -- closure for the expanded state
  have hclosure' : ∀ u, st'.visited u = true → u ∉ st'.queue →
      ∀ v ∈ nbrs m u, st'.visited v = true := by
    intro u hu hnq v hvnb
    rw [hque0] at hnq
    rcases (hvis0 u).mp hu with hold | hmem
    · by_cases huc : u = c
      · subst huc
        by_cases hvv : st.visited v = true
        · exact (hvis0 v).mpr (Or.inl hvv)
        · rw [Bool.not_eq_true] at hvv
          exact (hvis0 v).mpr (Or.inr (mem_newCells.mpr ⟨hvnb, hvv⟩))
      · have hnqold : u ∉ st.queue := by
          rw [hq]
          intro hmem2
          rcases List.mem_cons.mp hmem2 with h1 | h2
          · exact huc h1
          · exact hnq (List.mem_append_left _ h2)
        exact (hvis0 v).mpr (Or.inl (hinv.closure u hold hnqold v hvnb))
    · exact absurd (List.mem_append_right _ hmem) hnq
  -- potential accounting
  have hsub : news.toFinset ⊆ (gridFinset m).filter (fun p => st.visited p = false) := by
    intro p hp
    rw [List.mem_toFinset] at hp
    rw [Finset.mem_filter, mem_gridFinset]
    exact ⟨nbrs_inGrid (hnewsnb p hp), hnewsv p hp⟩
  have hfilter : (gridFinset m).filter (fun p => st'.visited p = false) =
      ((gridFinset m).filter (fun p => st.visited p = false)) \ news.toFinset := by
    ext p
    rw [Finset.mem_sdiff, Finset.mem_filter, Finset.mem_filter, List.mem_toFinset]
    constructor
    · rintro ⟨hg, hv0⟩
      have hb : ¬(st.visited p = true ∨ p ∈ news) := by
        rw [← hvis0 p, hv0]
        simp
      push_neg at hb
      have h1 := hb.1
      rw [← Bool.eq_false_iff] at h1
      exact ⟨⟨hg, h1⟩, hb.2⟩
    · rintro ⟨⟨hg, hv0⟩, hnm⟩
      refine ⟨hg, ?_⟩
      have hnt : ¬(st'.visited p = true) := by
        rw [hvis0 p]
        rintro (h | h)
        · rw [hv0] at h; simp at h
        · exact hnm h
      rwa [Bool.not_eq_true] at hnt
  have hnodup : news.Nodup := newCells_nodup m c st.visited
  have hcard : ucount m st'.visited = ucount m st.visited - news.length := by
    unfold ucount
    rw [hfilter, Finset.card_sdiff hsub, List.toFinset_card_of_nodup hnodup]
  have hle : news.length ≤ ucount m st.visited := by
    have := Finset.card_le_card hsub
    rwa [List.toFinset_card_of_nodup hnodup] at this
  refine ⟨?_, hlvold c hcv, hque0, hvis0, by omega⟩
  refine
    { qVisited := ?_, sVisited := ?_, sParent := ?_, unvisParent := ?_, level := ?_,
      chains := ?_, closure := hclosure', qSorted := ?_, qSpread := ?_,
      qFrontier := ?_, visGrid := ?_ }
  · -- qVisited
    intro x hx
    rw [hque0] at hx
    rcases List.mem_append.mp hx with hx | hx
    · exact (hvis0 x).mpr (Or.inl (hinv.qVisited x (by rw [hq]; simp [hx])))
    · exact (hvis0 x).mpr (Or.inr hx)
  · -- sVisited
    exact (hvis0 _).mpr (Or.inl hinv.sVisited)
  · -- sParent
    rw [hparold _ hinv.sVisited]
    exact hinv.sParent
  · -- unvisParent
    intro u hu
    have hb : ¬(st.visited u = true ∨ u ∈ news) := by
      rw [← hvis0 u, hu]
      simp
    push_neg at hb
    have h1 := hb.1
    rw [← Bool.eq_false_iff] at h1
    rw [hpold0 u hb.2]
    exact hinv.unvisParent u h1
  · -- level
    intro u hu
    rcases (hvis0 u).mp hu with hold | hmem
    · rw [hlvold u hold]
      exact hinv.level u hold
    · rw [hlvnew u hmem]
      exact hndist u hmem
  · -- chains
    intro u hu
    rcases (hvis0 u).mp hu with hold | hmem
    · obtain ⟨l, hcl, hlen, hnodes, hpw⟩ := hinv.chains u hold
      refine ⟨l, hcl.congr (fun x hx => hparold x (hnodes x hx)), ?_, ?_, ?_⟩
      · rw [hlvold u hold]; exact hlen
      · exact fun x hx => (hvis0 x).mpr (Or.inl (hnodes x hx))
      · exact pairwise_rel_congr (fun x hx => (hlvold x (hnodes x hx)).symm) hpw
    · obtain ⟨lc, hclc, hlenc, hnodesc, hpwc⟩ := hinv.chains c hcv
      have hchainc : ChainL m st'.parent m.start c lc :=
        hclc.congr (fun x hx => hparold x (hnodesc x hx))
      refine ⟨lc ++ [u], ChainL.step (hpnew0 u hmem) (hnewsnb u hmem) hchainc, ?_, ?_, ?_⟩
      · rw [hlvnew u hmem]
        simp only [List.length_append, List.length_cons, List.length_nil]
        omega
      · intro x hx
        rcases List.mem_append.mp hx with hx | hx
        · exact (hvis0 x).mpr (Or.inl (hnodesc x hx))
        · rw [List.mem_singleton] at hx
          subst hx
          exact (hvis0 x).mpr (Or.inr hmem)
      · rw [List.pairwise_append]
        refine ⟨pairwise_rel_congr (fun x hx => (hlvold x (hnodesc x hx)).symm) hpwc,
          by simp, ?_⟩
        intro a ha b hb
        rw [List.mem_singleton] at hb
        subst hb
        have h1 : lv a ≤ lv c := pairwise_le_getLast hpwc hclc.last a ha
        rw [hlvold a (hnodesc a ha), hlvnew b hmem]
        omega
  · -- qSorted
    rw [hque0, List.pairwise_append]
    refine ⟨?_, ?_, ?_⟩
    · refine pairwise_rel_congr ?_ hqs0.2
      intro x hx
      exact (hlvold x (hinv.qVisited x (by rw [hq]; simp [hx]))).symm
    · exact pairwise_of_const hlvnew
    · intro a ha b hb
      have h1 : lv a ≤ lv c + 1 := hsprd a (by rw [hq]; simp [ha])
      rw [hlvold a (hinv.qVisited a (by rw [hq]; simp [ha])), hlvnew b hb]
      exact h1
  · -- qSpread
    intro c0 hc0 x hx
    rw [hque0] at hc0 hx
    cases hr : rest with
    | nil =>
      rw [hr] at hc0 hx
      simp only [List.nil_append] at hc0 hx
      have hc0mem : c0 ∈ news := List.mem_of_mem_head? hc0
      rw [hlvnew c0 hc0mem, hlvnew x hx]
      omega
    | cons r0 rest' =>
      rw [hr] at hc0 hx
      have hc0r0 : c0 = r0 := by
        simp only [List.cons_append, List.head?_cons, Option.some.injEq] at hc0
        exact hc0.symm
      subst hc0r0
      have hr0vis : st.visited c0 = true := hinv.qVisited c0 (by rw [hq, hr]; simp)
      have hlo : lv c ≤ lv c0 := hqs0.1 c0 (by rw [hr]; simp)
      rw [hlvold c0 hr0vis]
      rcases List.mem_append.mp hx with hx | hx
      · have hxvis : st.visited x = true :=
          hinv.qVisited x (by rw [hq, hr]; simp [hx])
        have h1 : lv x ≤ lv c + 1 := hsprd x (by rw [hq, hr]; simp [hx])
        rw [hlvold x hxvis]
        omega
      · rw [hlvnew x hx]
        omega
  · -- qFrontier
    intro c0 hc0 u k hdk hk
    rw [hque0] at hc0
    cases hr : rest with
    | nil =>
      rw [hr] at hc0
      simp only [List.nil_append] at hc0
      have hc0mem : c0 ∈ news := List.mem_of_mem_head? hc0
      rw [hlvnew c0 hc0mem] at hk
      rcases Nat.lt_or_ge k (lv c + 1) with hlt | hge
      · exact (hvis0 u).mpr (Or.inl (hinv.qFrontier c hhead u k hdk (by omega)))
      · have hkeq : k = lv c + 1 := by omega
        subst hkeq
        obtain ⟨v, hunb, hwv⟩ := walk_back hdk.1
        obtain ⟨j, hj, hdj⟩ := distIs_exists hwv
        have hvvis := hinv.qFrontier c hhead v j hdj (by omega)
        have hvnq : v ∉ st'.queue := by
          rw [hque0, hr]
          simp only [List.nil_append]
          intro hmem2
          rw [hnewsv v hmem2] at hvvis
          simp at hvvis
        exact hclosure' v ((hvis0 v).mpr (Or.inl hvvis)) hvnq u hunb
    | cons r0 rest' =>
      rw [hr] at hc0
      have hc0r0 : c0 = r0 := by
        simp only [List.cons_append, List.head?_cons, Option.some.injEq] at hc0
        exact hc0.symm
      subst hc0r0
      have hr0vis : st.visited c0 = true := hinv.qVisited c0 (by rw [hq, hr]; simp)
      have hlo : lv c ≤ lv c0 := hqs0.1 c0 (by rw [hr]; simp)
      have hhi : lv c0 ≤ lv c + 1 := hsprd c0 (by rw [hq, hr]; simp)
      rw [hlvold c0 hr0vis] at hk
      rcases Nat.lt_or_ge k (lv c + 1) with hlt | hge
      · exact (hvis0 u).mpr (Or.inl (hinv.qFrontier c hhead u k hdk (by omega)))
      · have hkeq : k = lv c + 1 := by omega
        subst hkeq
        have hlvr0 : lv c0 = lv c + 1 := by omega
        obtain ⟨v, hunb, hwv⟩ := walk_back hdk.1
        obtain ⟨j, hj, hdj⟩ := distIs_exists hwv
        have hvvis := hinv.qFrontier c hhead v j hdj (by omega)
        have hlvv : lv v = j := distIs_unique (hinv.level v hvvis) hdj
        have hvnq : v ∉ st'.queue := by
          rw [hque0, hr]
          intro hmem2
          rcases List.mem_append.mp hmem2 with hmem3 | hmem3
          · rcases List.mem_cons.mp hmem3 with h1 | h2
            · rw [h1] at hlvv
              omega
            · have hps := List.pairwise_cons.mp (hr ▸ hqs0.2)
              have := hps.1 v h2
              omega
          · rw [hnewsv v hmem3] at hvvis
            simp at hvvis
        exact hclosure' v ((hvis0 v).mpr (Or.inl hvvis)) hvnq u hunb
  · -- visGrid
    intro u hu
    rcases (hvis0 u).mp hu with hold | hmem
    · exact hinv.visGrid u hold
    · exact Or.inr (nbrs_inGrid (hnewsnb u hmem))

/-- Correctness of the calculatePath BFS loop: under the invariant,
with the end reachable and not yet dequeued, and enough fuel, the loop
returns a start-to-end path of valid steps whose length is minimal
among all walks. -/
theorem bfsLoop_correct (m : Maze) (fuel : Nat) :
    ∀ (st : BfsSt) (lv : Pos → Nat),
      BfsInv m st lv →
      (∃ n, walkB m n m.start m.endP = true) →
      (st.visited m.endP = true → m.endP ∈ st.queue) →
      ucount m st.visited + st.queue.length ≤ fuel →
      (bfsLoop m fuel st).head? = some m.start ∧
      (bfsLoop m fuel st).getLast? = some m.endP ∧
      (bfsLoop m fuel st).Chain' (stepOk m) ∧
      ∀ n, walkB m n m.start m.endP = true → (bfsLoop m fuel st).length ≤ n + 1 := by
  induction fuel with
  | zero =>
    intro st lv hinv hreach hpend hfuel
    exfalso
    have hne := bfs_queue_ne_nil hinv hreach hpend
    have := List.length_pos.mpr hne
    omega
  | succ fuel ih =>
    intro st lv hinv hreach hpend hfuel
    have hne := bfs_queue_ne_nil hinv hreach hpend
    obtain ⟨c, rest, hq⟩ := List.exists_cons_of_ne_nil hne
    have hunfold : bfsLoop m (fuel + 1) st =
        (match st.queue with
          | [] => []
          | q :: qs =>
            if q = m.endP then buildPath st.parent (m.width.toNat * m.height.toNat + 1) q
            else bfsLoop m fuel (bfsExpand m q { st with queue := qs })) := rfl
    by_cases hce : c = m.endP
    · subst hce
      have hloop : bfsLoop m (fuel + 1) st =
          buildPath st.parent (m.width.toNat * m.height.toNat + 1) m.endP := by
        rw [hunfold, hq]
        simp
      have hev : st.visited m.endP = true := hinv.qVisited _ (by rw [hq]; simp)
      obtain ⟨l, hcl, hlen, hnodes, hpw⟩ := hinv.chains _ hev
      have hbp : buildPath st.parent (m.width.toNat * m.height.toNat + 1) m.endP = l := by
        apply hcl.buildPath_eq hinv.sParent
        have hnd : l.Nodup := nodup_of_pairwise_lt hpw
        have hsubl : l.toFinset ⊆ insert m.start (gridFinset m) := by
          intro x hx
          rw [List.mem_toFinset] at hx
          rcases hinv.visGrid x (hnodes x hx) with h | h
          · rw [h]; exact Finset.mem_insert_self _ _
          · exact Finset.mem_insert_of_mem (mem_gridFinset.mpr h)
        have hcard := Finset.card_le_card hsubl
        rw [List.toFinset_card_of_nodup hnd] at hcard
        have hins := Finset.card_insert_le m.start (gridFinset m)
        rw [card_gridFinset] at hins
        omega
      rw [hloop, hbp]
      refine ⟨hcl.head, hcl.last, ?_, ?_⟩
      · exact List.Chain'.imp (fun a b hab => nbrs_stepOk hab) hcl.chain'
      · intro n hw
        have hd := hinv.level _ hev
        by_cases hlt : n < lv m.endP
        · have := hd.2 n hlt
          rw [this] at hw
          simp at hw
        · push_neg at hlt
          omega
    · obtain ⟨hinv', hlvc, hque', hvis', hcount⟩ := bfs_expand_inv hinv hq
      have hloop : bfsLoop m (fuel + 1) st =
          bfsLoop m fuel (bfsExpand m c { st with queue := rest }) := by
        rw [hunfold, hq]
        simp only
        rw [if_neg hce]
      have hpend' : (bfsExpand m c { st with queue := rest }).visited m.endP = true →
          m.endP ∈ (bfsExpand m c { st with queue := rest }).queue := by
        intro hev
        rcases (hvis' m.endP).mp hev with hold | hmem
        · have hmem0 := hpend hold
          rw [hq] at hmem0
          rcases List.mem_cons.mp hmem0 with h1 | h2
          · exact absurd h1.symm hce
          · rw [hque']
            exact List.mem_append_left _ h2
        · rw [hque']
          exact List.mem_append_right _ hmem
      have hfuel' : ucount m (bfsExpand m c { st with queue := rest }).visited +
          (bfsExpand m c { st with queue := rest }).queue.length ≤ fuel := by
        rw [hque']
        simp only [List.length_append]
        have hqlen : st.queue.length = rest.length + 1 := by rw [hq]; simp
        omega
      rw [hloop]
      exact ih _ _ hinv' hreach hpend' hfuel'

/-- C7: on every maze whose end cell is reachable from its start cell
through the wall graph, Maze.calculatePath (the value stored in the
solutionPath) starts at start, ends at end, moves by single canMove
steps, and its length is minimal among all start-to-end walks (the BFS
shortest-path property), measured against the independent reachability
predicate walkB. -/
theorem C7_solution_path_shortest (m : Maze)
    (hreach : ∃ n, walkB m n m.start m.endP = true) :
    (calculatePath m).head? = some m.start ∧
    (calculatePath m).getLast? = some m.endP ∧
    (calculatePath m).Chain' (stepOk m) ∧
    ∀ n, walkB m n m.start m.endP = true → (calculatePath m).length ≤ n + 1 := by
  unfold calculatePath
  apply bfsLoop_correct m _ _ (fun _ => 0) ?_ hreach ?_ ?_
  · refine
      { qVisited := ?_, sVisited := by simp, sParent := rfl, unvisParent := fun u _ => rfl,
        level := ?_, chains := ?_, closure := ?_, qSorted := by simp,
        qSpread := ?_, qFrontier := ?_, visGrid := ?_ }
    · intro c hc
      rw [List.mem_singleton] at hc
      subst hc
      simp
    · intro u hu
      rw [decide_eq_true_iff] at hu
      subst hu
      exact distIs_self m m.start
    · intro u hu
      rw [decide_eq_true_iff] at hu
      subst hu
      exact ⟨[m.start], ChainL.refl, rfl,
        fun x hx => by rw [List.mem_singleton] at hx; simp [hx], by simp⟩
    · intro u hu hnq
      rw [decide_eq_true_iff] at hu
      subst hu
      exact absurd (by simp : m.start ∈ [m.start]) hnq
    · intro c0 _ x _
      omega
    · intro c0 hc0 u k hdk hk
      have hk0 : k = 0 := by omega
      subst hk0
      have := walkB_zero.mp hdk.1
      subst this
      simp
    · intro u hu
      rw [decide_eq_true_iff] at hu
      exact Or.inl hu
  · intro hev
    rw [decide_eq_true_iff] at hev
    rw [hev]
    simp
  · have hcle : ucount m (fun p => decide (p = m.start)) ≤ m.width.toNat * m.height.toNat := by
      unfold ucount
      calc ((gridFinset m).filter _).card ≤ (gridFinset m).card := Finset.card_filter_le _ _
        _ = m.width.toNat * m.height.toNat := card_gridFinset m
    simp only [List.length_singleton]
    omega

/-- A concrete 2 by 1 corridor with the interior wall open; start
(0,0), end (1,0). -/
def maze2x1 : Maze :=
  { width := 2, height := 1,
    cells := [[true, true]],
    walls := { horizontal := [[true, true], [true, true]],
               vertical := [[true, false, true]] },
    start := (0, 0), endP := (1, 0), path := [] }

/-- Witness for C7: on the 2 by 1 corridor the end is reachable in one
step and the theorem applies. -/
theorem C7_solution_path_shortest_witness :
    (∃ n, walkB maze2x1 n maze2x1.start maze2x1.endP = true) ∧
    ((calculatePath maze2x1).head? = some maze2x1.start ∧
      (calculatePath maze2x1).getLast? = some maze2x1.endP ∧
      (calculatePath maze2x1).Chain' (stepOk maze2x1) ∧
      ∀ n, walkB maze2x1 n maze2x1.start maze2x1.endP = true →
        (calculatePath maze2x1).length ≤ n + 1) :=
  ⟨⟨1, by decide⟩, C7_solution_path_shortest maze2x1 ⟨1, by decide⟩⟩
